import Mathlib

/-!
Verification of `combine-elastic-buffered-stream` (`src/src/lib.rs`): an
elastic buffered read stream for the `combine` parser library.  The stream
buffers a blocking byte source in fixed-size chunks, supports single-byte
reads (`uncons`), absolute positions (`position`), and checkpoint/restore
backtracking, evicting buffered chunks that no live checkpoint can reach.

The Rust code is shallowly embedded:
* the abstract `R : Read` source is a list of pending bytes plus a schedule
  of read outcomes (partial deliveries, transient `Interrupted` signals,
  fatal I/O errors); an exhausted schedule behaves like `impl Read for &[u8]`
  (each call delivers as many pending bytes as fit);
* `Rc`/`Weak` checkpoint cells become registry entries carrying an identity,
  the shared position value, and a liveness flag (the flag drops to `false`
  when the consumer drops the owning handle);
* `usize`/`u64` become `Nat`; panics (assertion failures, out-of-bounds
  indexing) become an explicit `assertFail` outcome.

`CHUNK_SIZE = 1 <<< 13` in the source; the development is parameterised by
the chunk size `C` (the source computes `cursor_pos >> 13` and
`cursor_pos & ((1 <<< 13) - 1)`, which for a power of two are exactly
`cursor_pos / C` and `cursor_pos % C`).
-/

namespace ElasticBuffer

/-- `ITEM_INDEX_SIZE` from the source. -/
def ITEM_INDEX_SIZE : Nat := 13

/-- `CHUNK_SIZE = 1 << ITEM_INDEX_SIZE` from the source. -/
def CHUNK_SIZE : Nat := 2 ^ ITEM_INDEX_SIZE

/-- One outcome of a call to `Read::read` on the underlying source:
`deliver n` means the call reports up to `n` bytes (the actual count is
clipped to the destination capacity and to the bytes the source still has),
`interrupt` is an `ErrorKind::Interrupted` failure, `fail e` is any other
I/O error, identified by a code `e`. -/
inductive Step where
  | deliver (n : Nat)
  | interrupt
  | fail (e : Nat)
deriving DecidableEq, Repr

/-- Result of `read_exact_or_eof`: on success the leftover schedule, the
bytes the source still holds, the bytes written into the chunk, and the
returned `Option<NonZeroUsize>` EOF marker; on error the propagated error
code together with the state reached when it struck (the chunk keeps its
partial fill, as it does in Rust where the slice is written in place). -/
inductive ReorResult where
  | ok (sched : List Step) (src : List Nat) (filled : List Nat) (marker : Option Nat)
  | err (e : Nat) (sched : List Step) (src : List Nat) (filled : List Nat)
deriving DecidableEq, Repr

/-- Prepend already-written bytes to the chunk contents of a result. -/
def prependFilled (pre : List Nat) : ReorResult → ReorResult
  | .ok s b f m => .ok s b (pre ++ f) m
  | .err e s b f => .err e s b (pre ++ f)

/-- `read_exact_or_eof` (src/src/lib.rs:129-146): repeatedly read from the
source into the not-yet-filled part of the chunk (capacity `cap`) until the
chunk is full or one call returns `Ok(0)`; `Interrupted` is retried,
any other error propagates; the value returned is
`NonZeroUsize::new(chunk.len())`, i.e. `none` exactly when the chunk
filled completely.  When the schedule is exhausted, each further call
delivers greedily like `impl Read for &[u8]`. -/
def read_exact_or_eof (sched : List Step) (src : List Nat) (cap : Nat) : ReorResult :=
  if cap = 0 then .ok sched src [] none
  else
    match sched with
    | [] =>
      if cap ≤ src.length then .ok [] (src.drop cap) (src.take cap) none
      else .ok [] [] src (some (cap - src.length))
    | .deliver n :: rest =>
      let k := min (min n cap) src.length
      if k = 0 then .ok rest src [] (some cap)
      else prependFilled (src.take k) (read_exact_or_eof rest (src.drop k) (cap - k))
    | .interrupt :: rest => read_exact_or_eof rest src cap
    | .fail e :: rest => .err e rest src []

/-- One step of a well-behaved finite source: it delivers at least one byte
(when bytes remain) or is a transient interrupt, never a fatal I/O error. -/
def GoodStep : Step → Prop
  | .deliver n => 1 ≤ n
  | .interrupt => True
  | .fail _ => False

instance : DecidablePred GoodStep := fun st => by
  cases st <;> unfold GoodStep <;> infer_instance

/-- A schedule of a well-behaved finite source. -/
def GoodSched (sched : List Step) : Prop :=
  ∀ st ∈ sched, GoodStep st

instance : DecidablePred GoodSched := fun sched => List.decidableBAll _ sched

/-- One entry of the `CheckPointSet` registry (src/src/lib.rs:38): a
`CheckPointHandler` weak reference to the shared `Cell<usize>` of a
`CheckPoint`.  `id` identifies the shared cell, `pos` is the cell's current
value, and `alive` records whether the consumer still owns the `Rc` handle
(when every `Rc` clone is dropped, `Weak::upgrade` fails and `alive` is
`false`). -/
structure CPEntry where
  id : Nat
  pos : Nat
  alive : Bool
deriving DecidableEq, Repr

/-- `min.map_or(pos, |min_val| pos.min(min_val))`: the accumulator update
of the scan in `CheckPointSet::min` (src/src/lib.rs:61). -/
def optMin (acc : Option Nat) (pos : Nat) : Nat :=
  match acc with
  | none => pos
  | some min_val => min pos min_val

/-- The fold and retain of `CheckPointSet::min` (src/src/lib.rs:54-71),
scanning the entries front to back: entries whose upgrade fails are removed,
live entries fold `optMin` into the accumulator.  Returns the final
accumulator and the retained entries. -/
def cpMinAux (acc : Option Nat) : List CPEntry → Option Nat × List CPEntry
  | [] => (acc, [])
  | en :: rest =>
    if en.alive then
      let r := cpMinAux (some (optMin acc en.pos)) rest
      (r.1, en :: r.2)
    else cpMinAux acc rest

/-- `CheckPointSet::min`: minimum position over live checkpoints (`none`
when no live entry remains), pruning dead entries as a side effect. -/
def cpMin (l : List CPEntry) : Option Nat × List CPEntry :=
  cpMinAux none l

/-- `CheckPointSet::sub_offset` (src/src/lib.rs:73-78): subtract `value`
from every tracked cell.  The source `unwrap`s each upgrade, which succeeds
because `sub_offset` runs right after `min` pruned all dead entries. -/
def sub_offset (value : Nat) (l : List CPEntry) : List CPEntry :=
  l.map (fun en => { en with pos := en.pos - value })

/-- `ElasticBufferedReadStream<R>` (src/src/lib.rs:81-88).  `sched`/`src`
model the `raw_read` source, `buffer` the `VecDeque<[u8; CHUNK_SIZE]>`
(each chunk a list of length `C`), `eof` the `Option<NonZeroUsize>` EOF
marker, `cps` with `nextId` the `CheckPointSet`, and `cursor_pos`/`offset`
the cursor and the rebasing offset. -/
structure EBRStream where
  sched : List Step
  src : List Nat
  buffer : List (List Nat)
  eof : Option Nat
  cps : List CPEntry
  nextId : Nat
  cursor_pos : Nat
  offset : Nat
deriving DecidableEq, Repr

/-- `ElasticBufferedReadStream::new` (src/src/lib.rs:91-100). -/
def mkStream (sched : List Step) (src : List Nat) : EBRStream :=
  { sched := sched, src := src, buffer := [], eof := none,
    cps := [], nextId := 0, cursor_pos := 0, offset := 0 }

/-- `chunk_index` (src/src/lib.rs:102-104): `cursor_pos >> ITEM_INDEX_SIZE`,
i.e. `cursor_pos / C` for the power-of-two chunk size. -/
def chunkIndex (C cursor : Nat) : Nat := cursor / C

/-- `item_index` (src/src/lib.rs:106-108): `cursor_pos & ITEM_INDEX_MASK`,
i.e. `cursor_pos % C`. -/
def itemIndex (C cursor : Nat) : Nat := cursor % C

/-- The local `global_pos_min` of `free_useless_chunks`
(src/src/lib.rs:111-113): `checkpoint_pos_min.map_or(cursor_pos, |cp_min|
cp_min.min(cursor_pos))` with `checkpoint_pos_min = checkpoints.min()`. -/
def global_pos_min (s : EBRStream) : Nat :=
  match (cpMin s.cps).1 with
  | none => s.cursor_pos
  | some cp_min => min cp_min s.cursor_pos

/-- The local `drain_quantity = global_pos_min / CHUNK_SIZE` of
`free_useless_chunks` (src/src/lib.rs:114). -/
def drain_quantity (C : Nat) (s : EBRStream) : Nat :=
  global_pos_min s / C

/-- `free_useless_chunks` (src/src/lib.rs:110-122): compute the minimum of
the live checkpoint positions and the cursor, drain that many whole chunks
from the buffer head, and rebase cursor, offset and checkpoints by the
drained byte count.  (`VecDeque::drain(..n)` and the `usize` subtractions
would panic out of range; the reachable-state invariants below prove the
bounds hold, so the total `List.drop` / truncated `Nat` subtraction agree
with the source.) -/
def free_useless_chunks (C : Nat) (s : EBRStream) : EBRStream :=
  let offset_delta := drain_quantity C s * C
  { s with
    buffer := s.buffer.drop (drain_quantity C s),
    cps := sub_offset offset_delta (cpMin s.cps).2,
    cursor_pos := s.cursor_pos - offset_delta,
    offset := s.offset + offset_delta }

/-- The chunk contents after `read_exact_or_eof` wrote `filled` into a
freshly zeroed `[0; CHUNK_SIZE]` chunk. -/
def writeChunk (C : Nat) (filled : List Nat) : List Nat :=
  filled ++ List.replicate (C - filled.length) 0

/-- Outcome of the chunk-fetch prefix of `uncons` (src/src/lib.rs:157-162):
a new state, or a propagated I/O error with the state the `?` operator
leaves behind, or a panic of the `assert!(self.eof.is_none())`. -/
inductive FetchResult where
  | ok (s : EBRStream)
  | ioError (e : Nat) (s : EBRStream)
  | assertFail
deriving DecidableEq, Repr

/-- The body of `if self.chunk_index() == self.buffer.len() { ... }` in
`uncons` (src/src/lib.rs:157-162): assert no EOF marker is recorded, run
eviction, push a zeroed chunk and fill it from the source.  On an I/O error
the pushed chunk keeps its partial fill and `eof` stays unset, matching the
in-place mutation before `?` propagates. -/
def fetchChunk (C : Nat) (s : EBRStream) : FetchResult :=
  match s.eof with
  | some _ => .assertFail
  | none =>
    let s1 := free_useless_chunks C s
    match read_exact_or_eof s1.sched s1.src C with
    | .ok sched' src' filled marker =>
      .ok { s1 with
            sched := sched', src := src',
            buffer := s1.buffer ++ [writeChunk C filled], eof := marker }
    | .err e sched' src' filled =>
      .ioError e { s1 with
                   sched := sched', src := src',
                   buffer := s1.buffer ++ [writeChunk C filled] }

/-- Result of one `uncons` call.  The Rust signature is
`&mut self -> Result<u8, StreamErrorFor<Self>>`; every non-panicking branch
leaves the mutated stream behind, so the model returns it alongside the
outcome.  `assertFail` stands for a panic (a failed `assert!` or an
out-of-bounds index). -/
inductive UnconsResult where
  | ok (b : Nat) (s : EBRStream)
  | endOfInput (s : EBRStream)
  | ioError (e : Nat) (s : EBRStream)
  | assertFail
deriving DecidableEq, Repr

/-- The final read of `uncons` (src/src/lib.rs:172-176): fetch the byte at
`[chunk_index][item_index]` (an out-of-bounds index would panic) and advance
the cursor. -/
def readByte (C : Nat) (s : EBRStream) : UnconsResult :=
  match s.buffer[chunkIndex C s.cursor_pos]? with
  | none => .assertFail
  | some chunk =>
    match chunk[itemIndex C s.cursor_pos]? with
    | none => .assertFail
    | some item => .ok item { s with cursor_pos := s.cursor_pos + 1 }

/-- `uncons` (src/src/lib.rs:154-177): assert the cursor's chunk index is
within the buffer, fetch a fresh chunk when the cursor ran off the end,
signal `EndOfInput` when the cursor sits in the unfilled tail of the last
chunk, and otherwise return the byte under the cursor and advance.
(`self.buffer.len() - 1` is a `usize` subtraction; at this point the buffer
is never empty — shown below for reachable states — so truncated `Nat`
subtraction agrees with the source.) -/
def uncons (C : Nat) (s : EBRStream) : UnconsResult :=
  if chunkIndex C s.cursor_pos ≤ s.buffer.length then
    let fetched : FetchResult :=
      if chunkIndex C s.cursor_pos = s.buffer.length then fetchChunk C s
      else .ok s
    match fetched with
    | .assertFail => .assertFail
    | .ioError e s' => .ioError e s'
    | .ok s' =>
      if chunkIndex C s'.cursor_pos = s'.buffer.length - 1 then
        match s'.eof with
        | some eof_pos_from_right =>
          if C - eof_pos_from_right ≤ itemIndex C s'.cursor_pos then
            .endOfInput s'
          else readByte C s'
        | none => readByte C s'
      else readByte C s'
  else .assertFail

/-- `Positioned::position` (src/src/lib.rs:180-184): `offset + cursor_pos`. -/
def position (s : EBRStream) : Nat :=
  s.offset + s.cursor_pos

/-- `Resetable::checkpoint` (src/src/lib.rs:189-191), i.e.
`CheckPointSet::insert(cursor_pos)` (src/src/lib.rs:45-52): allocate a
fresh shared cell holding `cursor_pos`, push a weak handler onto the
registry, and hand the owning handle (modelled by its `id`) to the
consumer. -/
def checkpoint (s : EBRStream) : Nat × EBRStream :=
  (s.nextId,
   { s with
     cps := s.cps ++ [{ id := s.nextId, pos := s.cursor_pos, alive := true }],
     nextId := s.nextId + 1 })

/-- `Resetable::reset` (src/src/lib.rs:193-195): `cursor_pos` becomes the
current value of the checkpoint's shared cell (`checkpoint.inner()`).  The
handle passed to `reset` keeps the cell reachable, so the registry still
holds its entry; an absent id models no real call and leaves the state
unchanged. -/
def reset (s : EBRStream) (cpId : Nat) : EBRStream :=
  match s.cps.find? (fun en => en.id == cpId) with
  | some en => { s with cursor_pos := en.pos }
  | none => s

/-- The consumer drops (the last clone of) a checkpoint handle: the shared
cell becomes unreachable from the registry's weak reference. -/
def dropCheckpoint (s : EBRStream) (cpId : Nat) : EBRStream :=
  { s with
    cps := s.cps.map (fun en => if en.id == cpId then { en with alive := false } else en) }

/-- `k` consecutive `uncons` calls, collecting the returned bytes; `none`
as soon as one call does not return a byte. -/
def unconsN (C : Nat) : Nat → EBRStream → Option (List Nat × EBRStream)
  | 0, s => some ([], s)
  | k + 1, s =>
    match uncons C s with
    | .ok b s' =>
      match unconsN C k s' with
      | some (bs, s'') => some (b :: bs, s'')
      | none => none
    | _ => none

/-- Number of valid buffered bytes: all chunks are full except that the EOF
marker counts unfilled bytes at the tail of the last chunk. -/
def validLen (C : Nat) (s : EBRStream) : Nat :=
  s.buffer.length * C - (match s.eof with | some e => e | none => 0)

/-- The byte stored at relative position `k` of the chunked buffer:
chunk `k / C`, offset `k % C`. -/
def chunkByte (C : Nat) (s : EBRStream) (k : Nat) : Option Nat :=
  (s.buffer[k / C]?).bind (fun c => getElem? c (k % C))

/-- The absolute stream position a live checkpoint cell denotes: `offset`
plus the cell's current (rebased) value; `none` when the handle with this
identity is dead or was never created. -/
def cpAbs (s : EBRStream) (cpId : Nat) : Option Nat :=
  (s.cps.find? (fun en => en.id == cpId && en.alive)).map (fun en => s.offset + en.pos)

/-- Invariant of the reachable states of a stream whose source delivers the
byte sequence `orig`: buffered bytes agree with `orig` at the corresponding
absolute positions, the source holds exactly the bytes not yet fetched, the
EOF marker is accurate, the cursor and all checkpoint cells stay within the
valid buffered range, and registry identities are unique. -/
structure Inv (C : Nat) (orig : List Nat) (s : EBRStream) : Prop where
  chunks_len : ∀ c ∈ s.buffer, c.length = C
  good : GoodSched s.sched
  len_le : s.offset + validLen C s ≤ orig.length
  data : ∀ k, k < validLen C s → chunkByte C s k = orig[s.offset + k]?
  src_eq : s.src = orig.drop (s.offset + validLen C s)
  eof_spec : ∀ e, s.eof = some e →
    s.offset + validLen C s = orig.length ∧ 1 ≤ e ∧ e ≤ C ∧ 1 ≤ s.buffer.length
  cursor_le : s.cursor_pos ≤ validLen C s
  cps_pos : ∀ en ∈ s.cps, en.pos ≤ validLen C s
  ids_nodup : (s.cps.map CPEntry.id).Nodup
  ids_lt : ∀ en ∈ s.cps, en.id < s.nextId

/-! ### Lemmas about `read_exact_or_eof` -/

theorem reor_good_spec (sched : List Step) (hg : GoodSched sched) :
    ∀ (src : List Nat) (cap : Nat),
      ∃ sched', GoodSched sched' ∧
        read_exact_or_eof sched src cap =
          .ok sched' (src.drop cap) (src.take cap)
            (if cap ≤ src.length then none else some (cap - src.length)) := by
  induction sched with
  | nil =>
    intro src cap
    refine ⟨[], fun st h => absurd h (List.not_mem_nil st), ?_⟩
    unfold read_exact_or_eof
    by_cases h0 : cap = 0
    · subst h0; simp
    · simp only [if_neg h0]
      by_cases hle : cap ≤ src.length
      · simp [hle]
      · have h1 : src.length ≤ cap := le_of_not_le hle
        simp [hle, List.drop_eq_nil_of_le h1, List.take_of_length_le h1]
  | cons st rest ih =>
    intro src cap
    have hst : GoodStep st := hg st (List.mem_cons_self st rest)
    have hrest : GoodSched rest := fun x hx => hg x (List.mem_cons_of_mem st hx)
    by_cases h0 : cap = 0
    · subst h0
      refine ⟨st :: rest, hg, ?_⟩
      unfold read_exact_or_eof
      simp
    cases st with
    | interrupt =>
      obtain ⟨sched', hg', heq⟩ := ih hrest src cap
      refine ⟨sched', hg', ?_⟩
      unfold read_exact_or_eof
      simpa [h0] using heq
    | fail e => exact absurd hst (by simp [GoodStep])
    | deliver n =>
      have hn : 1 ≤ n := hst
      by_cases hk : min (min n cap) src.length = 0
      · have hsrc : src.length = 0 := by omega
        have hsrcnil : src = [] := List.eq_nil_of_length_eq_zero hsrc
        refine ⟨rest, hrest, ?_⟩
        unfold read_exact_or_eof
        subst hsrcnil
        simp only [if_neg h0]
        simp [hk, Nat.le_zero, h0]
      · set k := min (min n cap) src.length with hkdef
        have hkcap : k ≤ cap := le_trans (Nat.min_le_left _ _) (Nat.min_le_right _ _)
        have hksrc : k ≤ src.length := Nat.min_le_right _ _
        obtain ⟨sched', hg', heq⟩ := ih hrest (src.drop k) (cap - k)
        refine ⟨sched', hg', ?_⟩
        unfold read_exact_or_eof
        simp only [if_neg h0, ← hkdef, if_neg hk]
        rw [heq]
        simp only [prependFilled]
        have hdd : (src.drop k).drop (cap - k) = src.drop cap := by
          rw [List.drop_drop]
          congr 1
          omega
        have htt : src.take k ++ (src.drop k).take (cap - k) = src.take cap := by
          rw [← List.take_add]
          congr 1
          omega
        have hlen : (src.drop k).length = src.length - k := List.length_drop k src
        rw [hdd, htt]
        have hmk : (if cap - k ≤ (src.drop k).length then none
              else some (cap - k - (src.drop k).length)) =
            (if cap ≤ src.length then none else some (cap - src.length)) := by
          rw [hlen]
          by_cases hcl : cap ≤ src.length
          · rw [if_pos hcl, if_pos (by omega)]
          · rw [if_neg hcl, if_neg (by omega)]
            congr 1
            omega
        rw [hmk]

theorem reor_marker (sched : List Step) :
    ∀ (src : List Nat) (cap : Nat) (sched' : List Step) (src' filled : List Nat)
      (marker : Option Nat),
      read_exact_or_eof sched src cap = .ok sched' src' filled marker →
      filled.length ≤ cap ∧ (marker = none ↔ filled.length = cap) ∧
        (∀ m, marker = some m → m = cap - filled.length ∧ filled.length < cap) := by
  induction sched with
  | nil =>
    intro src cap sched' src' filled marker h
    unfold read_exact_or_eof at h
    by_cases h0 : cap = 0
    · subst h0
      simp only [if_pos rfl] at h
      obtain ⟨-, -, h3, h4⟩ := ReorResult.ok.inj h
      subst h3; subst h4
      simp
    · simp only [if_neg h0] at h
      by_cases hle : cap ≤ src.length
      · simp only [if_pos hle] at h
        obtain ⟨-, -, h3, h4⟩ := ReorResult.ok.inj h
        subst h3; subst h4
        simp [List.length_take, Nat.min_eq_left hle]
      · simp only [if_neg hle] at h
        obtain ⟨-, -, h3, h4⟩ := ReorResult.ok.inj h
        subst h3; subst h4
        refine ⟨by omega, by simp; omega, ?_⟩
        intro m hm
        injection hm with hm2
        omega
  | cons st rest ih =>
    intro src cap sched' src' filled marker h
    unfold read_exact_or_eof at h
    by_cases h0 : cap = 0
    · subst h0
      simp only [if_pos rfl] at h
      obtain ⟨-, -, h3, h4⟩ := ReorResult.ok.inj h
      subst h3; subst h4
      simp
    simp only [if_neg h0] at h
    cases st with
    | interrupt => exact ih src cap sched' src' filled marker h
    | fail e => exact absurd h (by simp)
    | deliver n =>
      by_cases hk : min (min n cap) src.length = 0
      · simp only [hk, if_pos rfl] at h
        obtain ⟨-, -, h3, h4⟩ := ReorResult.ok.inj h
        subst h3; subst h4
        refine ⟨by simp, by simp; omega, ?_⟩
        intro m hm
        injection hm with hm2
        simp
        omega
      · simp only [if_neg hk] at h
        set k := min (min n cap) src.length with hkdef
        have hkcap : k ≤ cap := le_trans (Nat.min_le_left _ _) (Nat.min_le_right _ _)
        have hksrc : k ≤ src.length := Nat.min_le_right _ _
        rcases hrec : read_exact_or_eof rest (src.drop k) (cap - k) with
          ⟨s2, b2, f2, m2⟩ | ⟨e2, s2, b2, f2⟩
        · rw [hrec] at h
          simp only [prependFilled] at h
          obtain ⟨-, -, h3, h4⟩ := ReorResult.ok.inj h
          subst h3; subst h4
          obtain ⟨ha, hb, hc⟩ := ih (src.drop k) (cap - k) s2 b2 f2 m2 hrec
          have hklen : (src.take k).length = k := by
            simp [List.length_take, Nat.min_eq_left hksrc]
          refine ⟨?_, ?_, ?_⟩
          · simp only [List.length_append, hklen]; omega
          · rw [hb]; simp only [List.length_append, hklen]; omega
          · intro m hm
            obtain ⟨hc1, hc2⟩ := hc m hm
            simp only [List.length_append, hklen]
            omega
        · rw [hrec] at h
          exact absurd h (by simp [prependFilled])

theorem reor_interrupt (sched : List Step) (src : List Nat) (cap : Nat) (h0 : 0 < cap) :
    read_exact_or_eof (Step.interrupt :: sched) src cap =
      read_exact_or_eof sched src cap := by
  have h1 : cap ≠ 0 := Nat.pos_iff_ne_zero.mp h0
  conv_lhs => unfold read_exact_or_eof
  simp [h1]

theorem reor_fail (rest : List Step) (src : List Nat) (cap e : Nat) (h0 : 0 < cap) :
    read_exact_or_eof (Step.fail e :: rest) src cap = .err e rest src [] := by
  unfold read_exact_or_eof
  simp [Nat.pos_iff_ne_zero.mp h0]

/-! ### Lemmas about the checkpoint registry -/

theorem optMin_none (pos : Nat) : optMin none pos = pos := rfl

theorem optMin_some (a pos : Nat) : optMin (some a) pos = min pos a := rfl

theorem cpMinAux_cons_alive (acc : Option Nat) (en : CPEntry) (rest : List CPEntry)
    (h : en.alive = true) :
    cpMinAux acc (en :: rest) =
      ((cpMinAux (some (optMin acc en.pos)) rest).1,
       en :: (cpMinAux (some (optMin acc en.pos)) rest).2) := by
  simp [cpMinAux, h]

theorem cpMinAux_cons_dead (acc : Option Nat) (en : CPEntry) (rest : List CPEntry)
    (h : en.alive = false) :
    cpMinAux acc (en :: rest) = cpMinAux acc rest := by
  simp [cpMinAux, h]

theorem cpMinAux_snd (l : List CPEntry) :
    ∀ acc, (cpMinAux acc l).2 = l.filter (fun en => en.alive) := by
  induction l with
  | nil => intro acc; rfl
  | cons en rest ih =>
    intro acc
    rcases hal : en.alive with - | -
    · rw [cpMinAux_cons_dead acc en rest hal]
      simp [List.filter_cons, hal, ih]
    · rw [cpMinAux_cons_alive acc en rest hal]
      simp [List.filter_cons, hal, ih]

theorem cpMinAux_le_acc (l : List CPEntry) :
    ∀ acc m a, (cpMinAux acc l).1 = some m → acc = some a → m ≤ a := by
  induction l with
  | nil =>
    intro acc m a hm ha
    subst ha
    injection hm with h
    omega
  | cons en rest ih =>
    intro acc m a hm ha
    subst ha
    rcases hal : en.alive with - | -
    · rw [cpMinAux_cons_dead _ en rest hal] at hm
      exact ih (some a) m a hm rfl
    · rw [cpMinAux_cons_alive _ en rest hal] at hm
      have := ih _ m (optMin (some a) en.pos) hm rfl
      rw [optMin_some] at this
      omega

theorem cpMinAux_le_mem (l : List CPEntry) :
    ∀ acc m, (cpMinAux acc l).1 = some m →
      ∀ en ∈ l, en.alive = true → m ≤ en.pos := by
  induction l with
  | nil => intro acc m _ en hen; exact absurd hen (List.not_mem_nil en)
  | cons en0 rest ih =>
    intro acc m hm en hen hal
    rcases List.mem_cons.mp hen with heq | hmem
    · subst heq
      rw [cpMinAux_cons_alive acc en rest hal] at hm
      have := cpMinAux_le_acc rest _ m (optMin acc en.pos) hm rfl
      rcases acc with - | a
      · rwa [optMin_none] at this
      · rw [optMin_some] at this
        omega
    · rcases hal0 : en0.alive with - | -
      · rw [cpMinAux_cons_dead acc en0 rest hal0] at hm
        exact ih _ m hm en hmem hal
      · rw [cpMinAux_cons_alive acc en0 rest hal0] at hm
        exact ih _ m hm en hmem hal

theorem cpMinAux_none_iff (l : List CPEntry) :
    ∀ acc, (cpMinAux acc l).1 = none ↔
      (acc = none ∧ ∀ en ∈ l, en.alive = false) := by
  induction l with
  | nil =>
    intro acc
    constructor
    · intro h; exact ⟨h, fun en hen => absurd hen (List.not_mem_nil en)⟩
    · intro h; exact h.1
  | cons en0 rest ih =>
    intro acc
    rcases hal0 : en0.alive with - | -
    · rw [cpMinAux_cons_dead acc en0 rest hal0]
      rw [ih acc]
      constructor
      · rintro ⟨h1, h2⟩
        refine ⟨h1, fun en hen => ?_⟩
        rcases List.mem_cons.mp hen with heq | hmem
        · subst heq; exact hal0
        · exact h2 en hmem
      · rintro ⟨h1, h2⟩
        exact ⟨h1, fun en hen => h2 en (List.mem_cons_of_mem en0 hen)⟩
    · rw [cpMinAux_cons_alive acc en0 rest hal0]
      constructor
      · intro h
        have := ((ih _).mp h).1
        exact absurd this (by simp)
      · rintro ⟨-, hall⟩
        have := hall en0 (List.mem_cons_self en0 rest)
        rw [hal0] at this
        exact absurd this (by simp)

theorem cpMinAux_attained (l : List CPEntry) :
    ∀ acc m, (cpMinAux acc l).1 = some m →
      acc = some m ∨ ∃ en ∈ l, en.alive = true ∧ en.pos = m := by
  induction l with
  | nil => intro acc m hm; exact Or.inl hm
  | cons en0 rest ih =>
    intro acc m hm
    rcases hal0 : en0.alive with - | -
    · rw [cpMinAux_cons_dead acc en0 rest hal0] at hm
      rcases ih _ m hm with h | ⟨en, hen, h1, h2⟩
      · exact Or.inl h
      · exact Or.inr ⟨en, List.mem_cons_of_mem en0 hen, h1, h2⟩
    · rw [cpMinAux_cons_alive acc en0 rest hal0] at hm
      rcases ih _ m hm with h | ⟨en, hen, h1, h2⟩
      · injection h with h
        rcases acc with - | a
        · rw [optMin_none] at h
          exact Or.inr ⟨en0, List.mem_cons_self en0 rest, hal0, h⟩
        · rw [optMin_some] at h
          rcases le_total en0.pos a with hle | hle
          · rw [Nat.min_eq_left hle] at h
            exact Or.inr ⟨en0, List.mem_cons_self en0 rest, hal0, h⟩
          · rw [Nat.min_eq_right hle] at h
            exact Or.inl (by rw [h])
      · exact Or.inr ⟨en, List.mem_cons_of_mem en0 hen, h1, h2⟩

theorem cpMin_snd (l : List CPEntry) :
    (cpMin l).2 = l.filter (fun en => en.alive) :=
  cpMinAux_snd l none

theorem cpMin_none_iff (l : List CPEntry) :
    (cpMin l).1 = none ↔ ∀ en ∈ l, en.alive = false := by
  unfold cpMin
  rw [cpMinAux_none_iff l none]
  simp

theorem cpMin_le_mem (l : List CPEntry) (m : Nat) (hm : (cpMin l).1 = some m) :
    ∀ en ∈ l, en.alive = true → m ≤ en.pos :=
  cpMinAux_le_mem l none m hm

theorem cpMin_attained (l : List CPEntry) (m : Nat) (hm : (cpMin l).1 = some m) :
    ∃ en ∈ l, en.alive = true ∧ en.pos = m := by
  rcases cpMinAux_attained l none m hm with h | h
  · exact absurd h (by simp)
  · exact h

/-- Every retained entry is alive, and the minimum bounds it from below. -/
theorem cpMin_retained (l : List CPEntry) :
    ∀ en ∈ (cpMin l).2, en.alive = true ∧
      ∀ m, (cpMin l).1 = some m → m ≤ en.pos := by
  intro en hen
  rw [cpMin_snd] at hen
  obtain ⟨hmem, halB⟩ := List.mem_filter.mp hen
  have hal : en.alive = true := by simpa using halB
  exact ⟨hal, fun m hm => cpMin_le_mem l m hm en hmem hal⟩

/-- The drained byte count is bounded by the global position minimum, hence
by the cursor and every live checkpoint position. -/
theorem drain_le_global (C : Nat) (s : EBRStream) :
    drain_quantity C s * C ≤ global_pos_min s :=
  Nat.div_mul_le_self (global_pos_min s) C

theorem global_le_cursor (s : EBRStream) :
    global_pos_min s ≤ s.cursor_pos := by
  unfold global_pos_min
  rcases h : (cpMin s.cps).1 with - | m
  · exact le_refl _
  · exact Nat.min_le_right m s.cursor_pos

theorem global_le_live (s : EBRStream) :
    ∀ en ∈ s.cps, en.alive = true → global_pos_min s ≤ en.pos := by
  intro en hen hal
  unfold global_pos_min
  rcases h : (cpMin s.cps).1 with - | m
  · exact absurd ((cpMin_none_iff s.cps).mp h en hen) (by simp [hal])
  · exact le_trans (Nat.min_le_left m s.cursor_pos) (cpMin_le_mem s.cps m h en hen hal)

/-! ### Claims C9 and C3: the registry minimum and eviction safety -/

/-- C9: `CheckPointSet::min` returns the minimum of the current positions of
all checkpoints whose owning handle is still alive, returns `none` when no
live entry remains, and as a side effect removes exactly the entries whose
underlying value is no longer reachable, leaving live entries registered. -/
theorem C9_checkpointset_min (l : List CPEntry) :
    (cpMin l).2 = l.filter (fun en => en.alive) ∧
    ((cpMin l).1 = none ↔ ∀ en ∈ l, en.alive = false) ∧
    (∀ m, (cpMin l).1 = some m →
      (∀ en ∈ l, en.alive = true → m ≤ en.pos) ∧
        ∃ en ∈ l, en.alive = true ∧ en.pos = m) :=
  ⟨cpMin_snd l, cpMin_none_iff l,
   fun m hm => ⟨cpMin_le_mem l m hm, cpMin_attained l m hm⟩⟩

/-- Witness for C9 at a concrete registry: two live entries at positions 5
and 3 and a dead entry at position 1; the minimum is 3, attained by a live
entry, and it bounds every live position. -/
theorem C9_checkpointset_min_witness :
    (∀ en ∈ [⟨0, 5, true⟩, ⟨1, 3, true⟩, ⟨2, 1, false⟩],
        CPEntry.alive en = true → 3 ≤ en.pos) ∧
      ∃ en ∈ [(⟨0, 5, true⟩ : CPEntry), ⟨1, 3, true⟩, ⟨2, 1, false⟩],
        en.alive = true ∧ en.pos = 3 :=
  (C9_checkpointset_min [⟨0, 5, true⟩, ⟨1, 3, true⟩, ⟨2, 1, false⟩]).2.2 3 rfl

/-- C3: eviction never drains a chunk containing a byte at or after the
global floor (`drain_quantity * C ≤ global_pos_min`, and any relative
position at or after the floor keeps a chunk index at or above the drain
count); after rebasing by `drain_quantity * C`, every retained entry is
alive — the `Weak::upgrade().unwrap()` in `sub_offset` cannot fail — and
its position subtraction cannot underflow (adding the delta back restores
the position), and the cursor subtraction cannot underflow either. -/
theorem C3_eviction_safety (C : Nat) (s : EBRStream) :
    (free_useless_chunks C s).buffer = s.buffer.drop (drain_quantity C s) ∧
    drain_quantity C s * C ≤ global_pos_min s ∧
    drain_quantity C s * C ≤ s.cursor_pos ∧
    (∀ en ∈ (cpMin s.cps).2,
      en.alive = true ∧ drain_quantity C s * C ≤ en.pos) ∧
    (free_useless_chunks C s).cps =
      sub_offset (drain_quantity C s * C) (cpMin s.cps).2 ∧
    (∀ en ∈ (cpMin s.cps).2,
      en.pos - drain_quantity C s * C + drain_quantity C s * C = en.pos) ∧
    (free_useless_chunks C s).cursor_pos + drain_quantity C s * C =
      s.cursor_pos ∧
    (∀ q, global_pos_min s ≤ q → drain_quantity C s ≤ q / C) := by
  have hd : drain_quantity C s * C ≤ global_pos_min s :=
    drain_le_global C s
  have hcur : drain_quantity C s * C ≤ s.cursor_pos :=
    le_trans hd (global_le_cursor s)
  have hlive : ∀ en ∈ (cpMin s.cps).2,
      en.alive = true ∧ drain_quantity C s * C ≤ en.pos := by
    intro en hen
    have h1 := cpMin_retained s.cps en hen
    refine ⟨h1.1, ?_⟩
    have hmem : en ∈ s.cps := by
      rw [cpMin_snd] at hen
      exact (List.mem_filter.mp hen).1
    exact le_trans hd (global_le_live s en hmem h1.1)
  refine ⟨rfl, hd, hcur, hlive, rfl, ?_, ?_, ?_⟩
  · intro en hen
    have := (hlive en hen).2
    omega
  · show s.cursor_pos - drain_quantity C s * C + drain_quantity C s * C =
      s.cursor_pos
    omega
  · intro q hq
    exact Nat.div_le_div_right hq

/-- Witness for C3 at a concrete stream: cursor at 5, a live checkpoint at
position 2 and a dead one at 0, chunk size 2, three buffered chunks; the
drain count is 1 and all the safety conjuncts evaluate. -/
theorem C3_eviction_safety_witness :
    (free_useless_chunks 2
      { sched := [], src := [], buffer := [[0, 1], [2, 3], [4, 5]], eof := none,
        cps := [⟨0, 2, true⟩, ⟨1, 0, false⟩], nextId := 2, cursor_pos := 5,
        offset := 0 }).buffer = [[2, 3], [4, 5]] ∧
    (free_useless_chunks 2
      { sched := [], src := [], buffer := [[0, 1], [2, 3], [4, 5]], eof := none,
        cps := [⟨0, 2, true⟩, ⟨1, 0, false⟩], nextId := 2, cursor_pos := 5,
        offset := 0 }).cursor_pos = 3 := by
  have h := C3_eviction_safety 2
    { sched := [], src := [], buffer := [[0, 1], [2, 3], [4, 5]], eof := none,
      cps := [⟨0, 2, true⟩, ⟨1, 0, false⟩], nextId := 2, cursor_pos := 5,
      offset := 0 }
  refine ⟨?_, ?_⟩
  · rw [h.1]
    decide
  · have h7 := h.2.2.2.2.2.2.1
    decide

/-! ### Evaluation lemmas for `uncons` -/

theorem uncons_no_fetch (C : Nat) (s : EBRStream)
    (hlt : chunkIndex C s.cursor_pos < s.buffer.length) :
    uncons C s =
      if chunkIndex C s.cursor_pos = s.buffer.length - 1 then
        match s.eof with
        | some e =>
          if C - e ≤ itemIndex C s.cursor_pos then .endOfInput s
          else readByte C s
        | none => readByte C s
      else readByte C s := by
  unfold uncons
  rw [if_pos (le_of_lt hlt), if_neg (Nat.ne_of_lt hlt)]

theorem uncons_fetch (C : Nat) (s : EBRStream)
    (heq : chunkIndex C s.cursor_pos = s.buffer.length) :
    uncons C s =
      match fetchChunk C s with
      | .assertFail => .assertFail
      | .ioError e s' => .ioError e s'
      | .ok s' =>
        if chunkIndex C s'.cursor_pos = s'.buffer.length - 1 then
          match s'.eof with
          | some e =>
            if C - e ≤ itemIndex C s'.cursor_pos then .endOfInput s'
            else readByte C s'
          | none => readByte C s'
        else readByte C s' := by
  unfold uncons
  rw [if_pos (le_of_eq heq), if_pos heq]

theorem uncons_assert (C : Nat) (s : EBRStream)
    (hgt : s.buffer.length < chunkIndex C s.cursor_pos) :
    uncons C s = .assertFail := by
  unfold uncons
  rw [if_neg (by omega)]

theorem readByte_cases (C : Nat) (t : EBRStream) :
    readByte C t = .assertFail ∨
      ∃ b, readByte C t = .ok b { t with cursor_pos := t.cursor_pos + 1 } := by
  rcases hg : t.buffer[chunkIndex C t.cursor_pos]? with - | chunk
  · left
    unfold readByte
    rw [hg]
  · rcases hi : chunk[itemIndex C t.cursor_pos]? with - | item
    · left
      unfold readByte
      rw [hg]
      simp [hi]
    · right
      refine ⟨item, ?_⟩
      unfold readByte
      rw [hg]
      simp [hi]

theorem fetchChunk_eof_assert (C : Nat) (s : EBRStream) (e : Nat)
    (heof : s.eof = some e) : fetchChunk C s = .assertFail := by
  unfold fetchChunk
  rw [heof]

theorem fetchChunk_ok (C : Nat) (s : EBRStream) (heof : s.eof = none)
    (sched' : List Step) (src' filled : List Nat) (marker : Option Nat)
    (hr : read_exact_or_eof (free_useless_chunks C s).sched
        (free_useless_chunks C s).src C = .ok sched' src' filled marker) :
    fetchChunk C s =
      .ok { free_useless_chunks C s with
            sched := sched', src := src',
            buffer := (free_useless_chunks C s).buffer ++ [writeChunk C filled],
            eof := marker } := by
  unfold fetchChunk
  rw [heof]
  simp only [hr]

theorem fetchChunk_err (C : Nat) (s : EBRStream) (heof : s.eof = none)
    (e : Nat) (sched' : List Step) (src' filled : List Nat)
    (hr : read_exact_or_eof (free_useless_chunks C s).sched
        (free_useless_chunks C s).src C = .err e sched' src' filled) :
    fetchChunk C s =
      .ioError e { free_useless_chunks C s with
                   sched := sched', src := src',
                   buffer := (free_useless_chunks C s).buffer ++ [writeChunk C filled] } := by
  unfold fetchChunk
  rw [heof]
  simp only [hr]

theorem position_free_le (C : Nat) (s : EBRStream) :
    position s ≤ position (free_useless_chunks C s) := by
  show s.offset + s.cursor_pos ≤
    (s.offset + drain_quantity C s * C) + (s.cursor_pos - drain_quantity C s * C)
  omega

theorem position_free_eq (C : Nat) (s : EBRStream)
    (h : drain_quantity C s * C ≤ s.cursor_pos) :
    position (free_useless_chunks C s) = position s := by
  show (s.offset + drain_quantity C s * C) + (s.cursor_pos - drain_quantity C s * C) =
    s.offset + s.cursor_pos
  omega

/-! ### Claims C6 and C7: the EOF branch of `uncons`, chunk filling -/

/-- C6: when the cursor's chunk is the last buffered chunk and an EOF marker
`e` is recorded, a read with `item_index ≥ C - e` (i.e. at or past the
filled prefix) returns `EndOfInput` and leaves the whole stream state
unchanged; otherwise the byte at `[chunk_index][item_index]` is returned and
`cursor_pos` advances by one, nothing else changing. -/
theorem C6_uncons_eof_branch (C : Nat) (s : EBRStream) (e : Nat)
    (hlen : 1 ≤ s.buffer.length)
    (hci : chunkIndex C s.cursor_pos = s.buffer.length - 1)
    (heof : s.eof = some e)
    (hchunk : ∀ c ∈ s.buffer, c.length = C) :
    (C - e ≤ itemIndex C s.cursor_pos → uncons C s = .endOfInput s) ∧
    (itemIndex C s.cursor_pos < C - e →
      ∃ chunk, s.buffer[chunkIndex C s.cursor_pos]? = some chunk ∧
        ∃ item, chunk[itemIndex C s.cursor_pos]? = some item ∧
          uncons C s = .ok item { s with cursor_pos := s.cursor_pos + 1 }) := by
  have hlt : chunkIndex C s.cursor_pos < s.buffer.length := by omega
  have hbase : uncons C s =
      if C - e ≤ itemIndex C s.cursor_pos then .endOfInput s
      else readByte C s := by
    rw [uncons_no_fetch C s hlt, if_pos hci]
    simp only [heof]
  rw [hbase]
  constructor
  · intro hge
    rw [if_pos hge]
  · intro hltf
    rw [if_neg (by omega)]
    have hchv : s.buffer[chunkIndex C s.cursor_pos]? =
        some (s.buffer[chunkIndex C s.cursor_pos]) :=
      List.getElem?_eq_getElem hlt
    refine ⟨_, hchv, ?_⟩
    have hclen : (s.buffer[chunkIndex C s.cursor_pos]).length = C :=
      hchunk _ (List.getElem_mem hlt)
    have hii : itemIndex C s.cursor_pos <
        (s.buffer[chunkIndex C s.cursor_pos]).length := by omega
    have hitv : (s.buffer[chunkIndex C s.cursor_pos])[itemIndex C s.cursor_pos]? =
        some ((s.buffer[chunkIndex C s.cursor_pos])[itemIndex C s.cursor_pos]) :=
      List.getElem?_eq_getElem hii
    refine ⟨_, hitv, ?_⟩
    unfold readByte
    rw [hchv]
    simp [hitv]

/-- Witness for C6: chunk size 2, a single buffered chunk `[5, 6]` with EOF
marker 1 (one unfilled byte); at cursor 1 the item index 1 is at the
unfilled tail, so `uncons` returns `EndOfInput` and changes nothing. -/
theorem C6_uncons_eof_branch_witness :
    uncons 2
      { sched := [], src := [], buffer := [[5, 6]], eof := some 1, cps := [],
        nextId := 0, cursor_pos := 1, offset := 0 } =
    UnconsResult.endOfInput
      { sched := [], src := [], buffer := [[5, 6]], eof := some 1, cps := [],
        nextId := 0, cursor_pos := 1, offset := 0 } :=
  (C6_uncons_eof_branch 2
    { sched := [], src := [], buffer := [[5, 6]], eof := some 1, cps := [],
      nextId := 0, cursor_pos := 1, offset := 0 } 1
    (by decide) (by decide) rfl (by decide)).1 (by decide)

/-- C7: `read_exact_or_eof` on a well-behaved schedule fills the chunk with
the next `cap` source bytes (or all remaining bytes), never surfacing the
transient interrupts; the EOF marker is the count of unfilled bytes, `none`
exactly when the chunk filled completely; a transient interrupt is retried
transparently; any other I/O error propagates. -/
theorem C7_read_exact_or_eof_contract (sched rest : List Step)
    (src : List Nat) (cap e : Nat) :
    (GoodSched sched →
      ∃ sched', GoodSched sched' ∧
        read_exact_or_eof sched src cap =
          .ok sched' (src.drop cap) (src.take cap)
            (if cap ≤ src.length then none else some (cap - src.length))) ∧
    (∀ sched2 src2 filled marker,
      read_exact_or_eof sched src cap = .ok sched2 src2 filled marker →
      (marker = none ↔ filled.length = cap) ∧
        ∀ m, marker = some m → m = cap - filled.length ∧ filled.length < cap) ∧
    (0 < cap →
      read_exact_or_eof (Step.interrupt :: sched) src cap =
        read_exact_or_eof sched src cap) ∧
    (0 < cap →
      read_exact_or_eof (Step.fail e :: rest) src cap = .err e rest src []) :=
  ⟨fun hg => reor_good_spec sched hg src cap,
   fun sched2 src2 filled marker h =>
     ⟨(reor_marker sched src cap sched2 src2 filled marker h).2.1,
      (reor_marker sched src cap sched2 src2 filled marker h).2.2⟩,
   fun h0 => reor_interrupt sched src cap h0,
   fun h0 => reor_fail rest src cap e h0⟩

/-- Witness for C7: a schedule with an interrupt and a short delivery over
a 2-byte source and a 4-byte chunk, and a failing schedule. -/
theorem C7_read_exact_or_eof_contract_witness :
    (∃ sched', GoodSched sched' ∧
      read_exact_or_eof [Step.interrupt, Step.deliver 1] [9, 8] 4 =
        ReorResult.ok sched' (List.drop 4 [9, 8]) (List.take 4 [9, 8])
          (if 4 ≤ List.length [9, 8] then none
           else some (4 - List.length [9, 8]))) ∧
    read_exact_or_eof [Step.fail 7] [9, 8] 4 = ReorResult.err 7 [] [9, 8] [] :=
  ⟨(C7_read_exact_or_eof_contract [Step.interrupt, Step.deliver 1] [] [9, 8] 4 7).1
      (by decide),
   (C7_read_exact_or_eof_contract [Step.interrupt, Step.deliver 1] [] [9, 8] 4 7).2.2.2
      (by decide)⟩

/-! ### Claim C4: absolute position monotonicity (refuted and amended) -/

/-- C4 counterexample: the claim that `offset + cursor_pos` is monotonically
non-decreasing across every operation sequence, reset included, fails on
the code.  Concretely (chunk size 2, source `[7]`): checkpoint the fresh
stream at position 0, read one byte — `position` is 1 — then reset to the
checkpoint: `position` drops back to 0. -/
theorem C4_position_counterexample :
    uncons 2 (checkpoint (mkStream [] [7])).2 =
      UnconsResult.ok 7
        { sched := [], src := [], buffer := [[7, 0]], eof := some 1,
          cps := [⟨0, 0, true⟩], nextId := 1, cursor_pos := 1, offset := 0 } ∧
    position (reset
      { sched := [], src := [], buffer := [[7, 0]], eof := some 1,
        cps := [⟨0, 0, true⟩], nextId := 1, cursor_pos := 1, offset := 0 } 0) <
      position
        { sched := [], src := [], buffer := [[7, 0]], eof := some 1,
          cps := [⟨0, 0, true⟩], nextId := 1, cursor_pos := 1, offset := 0 } := by
  decide

/-- C4 amended: `position() = offset + cursor_pos` is non-decreasing across
every operation except `reset` — every outcome of `uncons` (success,
`EndOfInput`, I/O error), `checkpoint`, and the internal eviction preserve
or increase it — while `reset` sets it to `offset` plus the checkpoint
cell's value, which may be smaller. -/
theorem C4_position_monotone_amended (C : Nat) (s : EBRStream) :
    (∀ b s', uncons C s = .ok b s' → position s ≤ position s') ∧
    (∀ s', uncons C s = .endOfInput s' → position s ≤ position s') ∧
    (∀ e s', uncons C s = .ioError e s' → position s ≤ position s') ∧
    position (checkpoint s).2 = position s ∧
    position s ≤ position (free_useless_chunks C s) ∧
    (∀ en, s.cps.find? (fun x => x.id == en.id) = some en →
      position (reset s en.id) = s.offset + en.pos) := by
  have hfetch : ∀ e' s', (fetchChunk C s = .ok s' ∨ fetchChunk C s = .ioError e' s') →
      position s ≤ position s' := by
    intro e' s' hf
    rcases heof : s.eof with - | mk
    · rcases hr : read_exact_or_eof (free_useless_chunks C s).sched
          (free_useless_chunks C s).src C with ⟨s2, b2, f2, m2⟩ | ⟨e2, s2, b2, f2⟩
      · have hev := fetchChunk_ok C s heof s2 b2 f2 m2 hr
        rcases hf with hf | hf
        · rw [hev] at hf
          injection hf with hf
          subst hf
          exact position_free_le C s
        · rw [hev] at hf
          exact absurd hf (by simp)
      · have hev := fetchChunk_err C s heof e2 s2 b2 f2 hr
        rcases hf with hf | hf
        · rw [hev] at hf
          exact absurd hf (by simp)
        · rw [hev] at hf
          obtain ⟨-, hf2⟩ := FetchResult.ioError.inj hf
          subst hf2
          exact position_free_le C s
    · have hev := fetchChunk_eof_assert C s mk heof
      rcases hf with hf | hf <;> rw [hev] at hf <;> exact absurd hf (by simp)
  have hread : ∀ t b s', position s ≤ position t → readByte C t = .ok b s' →
      position s ≤ position s' := by
    intro t b s' hle hr
    rcases readByte_cases C t with h | ⟨b0, h⟩
    · rw [h] at hr; exact absurd hr (by simp)
    · rw [h] at hr
      obtain ⟨-, h2⟩ := UnconsResult.ok.inj hr
      subst h2
      show position s ≤ t.offset + (t.cursor_pos + 1)
      unfold position at hle ⊢
      omega
  have hrbhelp : ∀ t, position s ≤ position t →
      (∀ b s', readByte C t = .ok b s' → position s ≤ position s') ∧
      (∀ s', readByte C t = .endOfInput s' → position s ≤ position s') ∧
      (∀ e' s', readByte C t = .ioError e' s' → position s ≤ position s') := by
    intro t hle
    refine ⟨fun b s' h => hread t b s' hle h, ?_, ?_⟩
    · intro s' h
      exact absurd h (by rcases readByte_cases C t with h2 | ⟨b2, h2⟩ <;> rw [h2] <;> simp)
    · intro e' s' h
      exact absurd h (by rcases readByte_cases C t with h2 | ⟨b2, h2⟩ <;> rw [h2] <;> simp)
  have htail : ∀ t, position s ≤ position t →
      (∀ b s', (if chunkIndex C t.cursor_pos = t.buffer.length - 1 then
          match t.eof with
          | some e =>
            if C - e ≤ itemIndex C t.cursor_pos then UnconsResult.endOfInput t
            else readByte C t
          | none => readByte C t
        else readByte C t) = .ok b s' → position s ≤ position s') ∧
      (∀ s', (if chunkIndex C t.cursor_pos = t.buffer.length - 1 then
          match t.eof with
          | some e =>
            if C - e ≤ itemIndex C t.cursor_pos then UnconsResult.endOfInput t
            else readByte C t
          | none => readByte C t
        else readByte C t) = .endOfInput s' → position s ≤ position s') ∧
      (∀ e' s', (if chunkIndex C t.cursor_pos = t.buffer.length - 1 then
          match t.eof with
          | some e =>
            if C - e ≤ itemIndex C t.cursor_pos then UnconsResult.endOfInput t
            else readByte C t
          | none => readByte C t
        else readByte C t) = .ioError e' s' → position s ≤ position s') := by
    intro t hle
    split_ifs with h1
    · rcases heof : t.eof with - | mk
    -- no EOF marker: a plain read
      · simp only [heof]
        exact hrbhelp t hle
      · simp only [heof]
        split_ifs with h2
        · refine ⟨fun b s' h => absurd h (by simp), ?_, fun e' s' h => absurd h (by simp)⟩
          intro s' h
          have h3 := UnconsResult.endOfInput.inj h
          subst h3
          exact hle
        · exact hrbhelp t hle
    · exact hrbhelp t hle
  rcases Nat.lt_trichotomy (chunkIndex C s.cursor_pos) s.buffer.length with
    hlt | hceq | hgt
  · rw [uncons_no_fetch C s hlt]
    obtain ⟨ht1, ht2, ht3⟩ := htail s (le_refl _)
    refine ⟨ht1, ht2, ht3, rfl, position_free_le C s, ?_⟩
    intro en hf
    unfold reset
    rw [hf]
    rfl
  · rw [uncons_fetch C s hceq]
    have hmain :
        (∀ b s', (match fetchChunk C s with
          | .assertFail => UnconsResult.assertFail
          | .ioError e s' => UnconsResult.ioError e s'
          | .ok s' =>
            if chunkIndex C s'.cursor_pos = s'.buffer.length - 1 then
              match s'.eof with
              | some e =>
                if C - e ≤ itemIndex C s'.cursor_pos then UnconsResult.endOfInput s'
                else readByte C s'
              | none => readByte C s'
            else readByte C s') = .ok b s' → position s ≤ position s') ∧
        (∀ s', (match fetchChunk C s with
          | .assertFail => UnconsResult.assertFail
          | .ioError e s' => UnconsResult.ioError e s'
          | .ok s' =>
            if chunkIndex C s'.cursor_pos = s'.buffer.length - 1 then
              match s'.eof with
              | some e =>
                if C - e ≤ itemIndex C s'.cursor_pos then UnconsResult.endOfInput s'
                else readByte C s'
              | none => readByte C s'
            else readByte C s') = .endOfInput s' → position s ≤ position s') ∧
        (∀ e' s', (match fetchChunk C s with
          | .assertFail => UnconsResult.assertFail
          | .ioError e s' => UnconsResult.ioError e s'
          | .ok s' =>
            if chunkIndex C s'.cursor_pos = s'.buffer.length - 1 then
              match s'.eof with
              | some e =>
                if C - e ≤ itemIndex C s'.cursor_pos then UnconsResult.endOfInput s'
                else readByte C s'
              | none => readByte C s'
            else readByte C s') = .ioError e' s' → position s ≤ position s') := by
      rcases hf : fetchChunk C s with s1 | ⟨e1, s1⟩ | -
      · have hle1 : position s ≤ position s1 := hfetch 0 s1 (Or.inl hf)
        simp only [hf]
        exact htail s1 hle1
      · simp only [hf]
        refine ⟨fun b s' h => absurd h (by simp), fun s' h => absurd h (by simp), ?_⟩
        intro e' s' h
        obtain ⟨h2, h3⟩ := UnconsResult.ioError.inj h
        subst h2; subst h3
        exact hfetch e1 s1 (Or.inr hf)
      · simp only [hf]
        exact ⟨fun b s' h => absurd h (by simp), fun s' h => absurd h (by simp),
          fun e' s' h => absurd h (by simp)⟩
    obtain ⟨ht1, ht2, ht3⟩ := hmain
    refine ⟨ht1, ht2, ht3, rfl, position_free_le C s, ?_⟩
    intro en hf
    unfold reset
    rw [hf]
    rfl
  · rw [uncons_assert C s hgt]
    refine ⟨fun b s' h => absurd h (by simp), fun s' h => absurd h (by simp),
      fun e' s' h => absurd h (by simp), rfl, position_free_le C s, ?_⟩
    intro en hf
    unfold reset
    rw [hf]
    rfl

/-- Witness for C4 amended: one successful read on a fresh stream over
`[5]` with chunk size 2 does not decrease the position. -/
theorem C4_position_monotone_amended_witness :
    position (mkStream [] [5]) ≤
      position
        { sched := [], src := [], buffer := [[5, 0]], eof := some 1,
          cps := [], nextId := 0, cursor_pos := 1, offset := 0 } :=
  (C4_position_monotone_amended 2 (mkStream [] [5])).1 5
    { sched := [], src := [], buffer := [[5, 0]], eof := some 1,
      cps := [], nextId := 0, cursor_pos := 1, offset := 0 } (by decide)

/-! ### Claims C10 and C8: frame of reset/checkpoint, eviction effectiveness -/

/-- C10: `reset` writes the checkpoint cell's value into `cursor_pos` and
changes nothing else (source, buffer, EOF marker, registry, offset all
unchanged), so `position()` right after a reset is `offset` plus the stored
value; `position` is a pure function of the state, and `checkpoint` changes
nothing except appending one live tracker and bumping the id counter. -/
theorem C10_reset_frame (s : EBRStream) (cpId : Nat) :
    ((reset s cpId).sched = s.sched ∧ (reset s cpId).src = s.src ∧
     (reset s cpId).buffer = s.buffer ∧ (reset s cpId).eof = s.eof ∧
     (reset s cpId).cps = s.cps ∧ (reset s cpId).nextId = s.nextId ∧
     (reset s cpId).offset = s.offset) ∧
    (∀ en, s.cps.find? (fun x => x.id == cpId) = some en →
      (reset s cpId).cursor_pos = en.pos ∧
        position (reset s cpId) = s.offset + en.pos) ∧
    position s = s.offset + s.cursor_pos ∧
    ((checkpoint s).2.sched = s.sched ∧ (checkpoint s).2.src = s.src ∧
     (checkpoint s).2.buffer = s.buffer ∧ (checkpoint s).2.eof = s.eof ∧
     (checkpoint s).2.cursor_pos = s.cursor_pos ∧
     (checkpoint s).2.offset = s.offset ∧
     (checkpoint s).2.cps =
       s.cps ++ [{ id := s.nextId, pos := s.cursor_pos, alive := true }] ∧
     position (checkpoint s).2 = position s) := by
  have hframe : (reset s cpId).sched = s.sched ∧ (reset s cpId).src = s.src ∧
      (reset s cpId).buffer = s.buffer ∧ (reset s cpId).eof = s.eof ∧
      (reset s cpId).cps = s.cps ∧ (reset s cpId).nextId = s.nextId ∧
      (reset s cpId).offset = s.offset := by
    unfold reset
    rcases hf : s.cps.find? (fun x => x.id == cpId) with - | en <;> simp [hf]
  refine ⟨hframe, ?_, rfl, rfl, rfl, rfl, rfl, rfl, rfl, rfl, rfl⟩
  intro en hf
  unfold reset
  rw [hf]
  exact ⟨rfl, rfl⟩

/-- Witness for C10: a concrete stream with one registered checkpoint at
position 1; resetting to it yields cursor 1 and position `offset + 1`. -/
theorem C10_reset_frame_witness :
    (reset
      { sched := [], src := [], buffer := [[3, 4]], eof := none,
        cps := [⟨0, 1, true⟩], nextId := 1, cursor_pos := 2,
        offset := 2 } 0).cursor_pos = 1 ∧
    position (reset
      { sched := [], src := [], buffer := [[3, 4]], eof := none,
        cps := [⟨0, 1, true⟩], nextId := 1, cursor_pos := 2,
        offset := 2 } 0) = 2 + 1 :=
  (C10_reset_frame
    { sched := [], src := [], buffer := [[3, 4]], eof := none,
      cps := [⟨0, 1, true⟩], nextId := 1, cursor_pos := 2,
      offset := 2 } 0).2.1 ⟨0, 1, true⟩ (by decide)

/-- C8: once every live checkpoint sits at or ahead of the cursor, eviction
drains exactly `cursor_pos / C` chunks — the buffer keeps only the chunks
from the cursor's chunk onward — and the chunk fetch inside `uncons`
appends a single fresh chunk to that shrunken buffer. -/
theorem C8_eviction_effectiveness (C : Nat) (s : EBRStream)
    (hbehind : ∀ en ∈ s.cps, en.alive = true → s.cursor_pos ≤ en.pos) :
    (free_useless_chunks C s).buffer = s.buffer.drop (s.cursor_pos / C) ∧
    (free_useless_chunks C s).buffer.length =
      s.buffer.length - s.cursor_pos / C ∧
    (∀ s', fetchChunk C s = .ok s' →
      ∃ ch, s'.buffer = s.buffer.drop (s.cursor_pos / C) ++ [ch]) := by
  have hglob : global_pos_min s = s.cursor_pos := by
    unfold global_pos_min
    rcases hm : (cpMin s.cps).1 with - | m
    · rfl
    · obtain ⟨en, hen, hal, hpos⟩ := cpMin_attained s.cps m hm
      have := hbehind en hen hal
      show min m s.cursor_pos = s.cursor_pos
      exact Nat.min_eq_right (by omega)
  have hbuf : (free_useless_chunks C s).buffer =
      s.buffer.drop (s.cursor_pos / C) := by
    show s.buffer.drop (drain_quantity C s) = _
    unfold drain_quantity
    rw [hglob]
  refine ⟨hbuf, ?_, ?_⟩
  · rw [hbuf]
    exact List.length_drop _ _
  · intro s' hf
    rcases heof : s.eof with - | mk
    · rcases hr : read_exact_or_eof (free_useless_chunks C s).sched
          (free_useless_chunks C s).src C with ⟨s2, b2, f2, m2⟩ | ⟨e2, s2, b2, f2⟩
      · rw [fetchChunk_ok C s heof s2 b2 f2 m2 hr] at hf
        injection hf with hf
        subst hf
        exact ⟨writeChunk C f2, by rw [← hbuf]⟩
      · rw [fetchChunk_err C s heof e2 s2 b2 f2 hr] at hf
        exact absurd hf (by simp)
    · rw [fetchChunk_eof_assert C s mk heof] at hf
      exact absurd hf (by simp)

/-- Witness for C8: chunk size 2, two full buffered chunks, cursor at 4, no
checkpoints; eviction drains both chunks and the fetch pulls one fresh
chunk from the source. -/
theorem C8_eviction_effectiveness_witness :
    (free_useless_chunks 2
      { sched := [], src := [9], buffer := [[1, 2], [3, 4]], eof := none,
        cps := [], nextId := 0, cursor_pos := 4, offset := 0 }).buffer =
      List.drop (4 / 2) [[1, 2], [3, 4]] ∧
    (free_useless_chunks 2
      { sched := [], src := [9], buffer := [[1, 2], [3, 4]], eof := none,
        cps := [], nextId := 0, cursor_pos := 4, offset := 0 }).buffer.length =
      List.length [[1, 2], [3, 4]] - 4 / 2 :=
  ⟨(C8_eviction_effectiveness 2
      { sched := [], src := [9], buffer := [[1, 2], [3, 4]], eof := none,
        cps := [], nextId := 0, cursor_pos := 4, offset := 0 }
      (by intro en hen hal; exact absurd hen (List.not_mem_nil en))).1,
   (C8_eviction_effectiveness 2
      { sched := [], src := [9], buffer := [[1, 2], [3, 4]], eof := none,
        cps := [], nextId := 0, cursor_pos := 4, offset := 0 }
      (by intro en hen hal; exact absurd hen (List.not_mem_nil en))).2.1⟩

/-! ### The reachable-state invariant: basic lemmas -/

theorem find?_filter_of_imp (l : List CPEntry) (p q : CPEntry → Bool)
    (h : ∀ x, p x = true → q x = true) :
    (l.filter q).find? p = l.find? p := by
  induction l with
  | nil => rfl
  | cons x rest ih =>
    rcases hq : q x with - | -
    · have hp : ¬ p x = true := by
        intro hpx
        rw [h x hpx] at hq
        cases hq
      rw [List.filter_cons_of_neg (by simp [hq]), List.find?_cons_of_neg rest hp, ih]
    · rw [List.filter_cons_of_pos (by simp [hq])]
      rcases hpx : p x with - | -
      · rw [List.find?_cons_of_neg _ (by simp [hpx]),
          List.find?_cons_of_neg rest (by simp [hpx]), ih]
      · rw [List.find?_cons_of_pos _ hpx, List.find?_cons_of_pos rest hpx]

theorem find?_map_entries (l : List CPEntry) (f : CPEntry → CPEntry)
    (p : CPEntry → Bool) :
    (l.map f).find? p = (l.find? (fun x => p (f x))).map f := by
  induction l with
  | nil => rfl
  | cons x rest ih =>
    rcases hp : p (f x) with - | -
    · rw [List.map_cons, List.find?_cons_of_neg _ (by simp [hp]),
        List.find?_cons_of_neg (p := fun x => p (f x)) rest (by simp [hp]), ih]
    · rw [List.map_cons, List.find?_cons_of_pos _ hp,
        List.find?_cons_of_pos (p := fun x => p (f x)) rest hp, Option.map_some']

theorem find?_id_of_mem_nodup (l : List CPEntry)
    (hnd : (l.map CPEntry.id).Nodup) (en : CPEntry) (hen : en ∈ l) :
    l.find? (fun x => x.id == en.id) = some en := by
  induction l with
  | nil => cases hen
  | cons x rest ih =>
    rw [List.map_cons, List.nodup_cons] at hnd
    rcases List.mem_cons.mp hen with heq | hmem
    · subst heq
      exact List.find?_cons_of_pos rest (by simp)
    · have hx : ¬ (x.id == en.id) = true := by
        simp only [beq_iff_eq]
        intro hcontra
        exact hnd.1 (hcontra ▸ List.mem_map_of_mem CPEntry.id hmem)
      rw [List.find?_cons_of_neg rest hx]
      exact ih hnd.2 hmem

theorem validLen_le (C : Nat) (s : EBRStream) :
    validLen C s ≤ s.buffer.length * C := by
  unfold validLen
  cases heof : s.eof <;> simp

theorem validLen_none (C : Nat) (s : EBRStream) (h : s.eof = none) :
    validLen C s = s.buffer.length * C := by
  unfold validLen
  rw [h]
  rfl

theorem validLen_some (C : Nat) (s : EBRStream) (e : Nat) (h : s.eof = some e) :
    validLen C s = s.buffer.length * C - e := by
  unfold validLen
  rw [h]

theorem mkStream_inv (C : Nat) (orig : List Nat) (sched : List Step)
    (hg : GoodSched sched) : Inv C orig (mkStream sched orig) := by
  have hV : validLen C (mkStream sched orig) = 0 := by
    rw [validLen_none C _ rfl]
    simp [mkStream]
  refine ⟨?_, hg, ?_, ?_, ?_, ?_, ?_, ?_, ?_, ?_⟩
  · intro c hc
    exact absurd hc (List.not_mem_nil c)
  · rw [hV]
    exact Nat.zero_le _
  · intro k hk
    rw [hV] at hk
    cases hk
  · rw [hV]
    simp [mkStream]
  · intro e he
    cases he
  · rw [hV]
    exact Nat.le_refl 0
  · intro en hen
    exact absurd hen (List.not_mem_nil en)
  · exact List.nodup_nil
  · intro en hen
    exact absurd hen (List.not_mem_nil en)

/-- Eviction preserves the invariant, the absolute position, and the
absolute position of every live checkpoint; it shrinks the valid range and
the buffer by exactly the drained quantity. -/
theorem free_inv (C : Nat) (orig : List Nat) (s : EBRStream) (hC : 0 < C)
    (hInv : Inv C orig s) :
    Inv C orig (free_useless_chunks C s) ∧
    (free_useless_chunks C s).offset + (free_useless_chunks C s).cursor_pos =
      s.offset + s.cursor_pos ∧
    validLen C (free_useless_chunks C s) =
      validLen C s - drain_quantity C s * C ∧
    drain_quantity C s * C ≤ s.cursor_pos ∧
    drain_quantity C s ≤ s.buffer.length ∧
    (∀ id, cpAbs (free_useless_chunks C s) id = cpAbs s id) := by
  have hdg : drain_quantity C s * C ≤ global_pos_min s := drain_le_global C s
  have hcur : drain_quantity C s * C ≤ s.cursor_pos :=
    le_trans hdg (global_le_cursor s)
  have hcv : s.cursor_pos ≤ validLen C s := hInv.cursor_le
  have hvlen : validLen C s ≤ s.buffer.length * C := validLen_le C s
  have hdv : drain_quantity C s * C ≤ validLen C s := le_trans hcur hcv
  have hdq_len : drain_quantity C s ≤ s.buffer.length :=
    Nat.le_of_mul_le_mul_right (le_trans hdv hvlen) hC
  have hbuflen : (free_useless_chunks C s).buffer.length =
      s.buffer.length - drain_quantity C s := List.length_drop _ _
  have heofeq : (free_useless_chunks C s).eof = s.eof := rfl
  have hV : validLen C (free_useless_chunks C s) =
      validLen C s - drain_quantity C s * C := by
    rcases heof : s.eof with - | e
    · rw [validLen_none C _ (heofeq.trans heof), validLen_none C s heof,
        hbuflen, Nat.sub_mul]
    · rw [validLen_some C _ e (heofeq.trans heof), validLen_some C s e heof,
        hbuflen, Nat.sub_mul]
      omega
  have hoff : (free_useless_chunks C s).offset =
      s.offset + drain_quantity C s * C := rfl
  have hcps : (free_useless_chunks C s).cps =
      sub_offset (drain_quantity C s * C) (cpMin s.cps).2 := rfl
  have hcpAbs : ∀ id, cpAbs (free_useless_chunks C s) id = cpAbs s id := by
    intro id
    have hfind2 : (free_useless_chunks C s).cps.find?
        (fun x => x.id == id && x.alive) =
        (s.cps.find? (fun x => x.id == id && x.alive)).map
          (fun en => { en with pos := en.pos - drain_quantity C s * C }) := by
      rw [hcps]
      unfold sub_offset
      rw [find?_map_entries]
      have hpred : (fun x => ((fun en => en.id == id && en.alive)
          ({ x with pos := x.pos - drain_quantity C s * C } : CPEntry))) =
          (fun x : CPEntry => x.id == id && x.alive) := by
        funext x
        rfl
      rw [hpred, cpMin_snd,
        find?_filter_of_imp _ _ _ (fun x hx => Bool.and_elim_right hx)]
    unfold cpAbs
    rw [hfind2]
    rcases hfind : s.cps.find? (fun x => x.id == id && x.alive) with - | en0
    · rw [hfind]
      rfl
    · rw [hfind]
      simp only [Option.map_some']
      congr 1
      have hal : en0.alive = true := by
        have hpr := List.find?_some hfind
        simp at hpr
        exact hpr.2
      have hmem : en0 ∈ s.cps := List.mem_of_find?_eq_some hfind
      have hglive : global_pos_min s ≤ en0.pos := global_le_live s en0 hmem hal
      show (free_useless_chunks C s).offset +
        (en0.pos - drain_quantity C s * C) = s.offset + en0.pos
      rw [hoff]
      omega
  refine ⟨⟨?_, hInv.good, ?_, ?_, ?_, ?_, ?_, ?_, ?_, ?_⟩, ?_, hV, hcur, hdq_len, hcpAbs⟩
  · intro c hc
    exact hInv.chunks_len c (List.drop_subset _ _ hc)
  · rw [hV, hoff]
    have := hInv.len_le
    omega
  · intro k hk
    rw [hV] at hk
    have hkD : drain_quantity C s * C + k < validLen C s := by omega
    have hdata := hInv.data (drain_quantity C s * C + k) hkD
    have hdiv : (drain_quantity C s * C + k) / C = drain_quantity C s + k / C := by
      rw [Nat.mul_comm (drain_quantity C s) C, Nat.mul_add_div hC]
    have hmod : (drain_quantity C s * C + k) % C = k % C := by
      rw [Nat.add_comm]
      exact Nat.add_mul_mod_self_right k (drain_quantity C s) C
    have hidx : s.offset + (drain_quantity C s * C + k) =
        (free_useless_chunks C s).offset + k := by
      rw [hoff]
      omega
    unfold chunkByte at hdata ⊢
    rw [hdiv, hmod, hidx] at hdata
    have hb : (free_useless_chunks C s).buffer =
        s.buffer.drop (drain_quantity C s) := rfl
    rw [hb, List.getElem?_drop]
    exact hdata
  · have hsrc : (free_useless_chunks C s).src = s.src := rfl
    rw [hsrc, hInv.src_eq, hV, hoff]
    congr 1
    omega
  · intro e he
    have he' : s.eof = some e := heofeq ▸ he
    obtain ⟨h1, h2, h3, h4⟩ := hInv.eof_spec e he'
    refine ⟨?_, h2, h3, ?_⟩
    · rw [hV, hoff]
      omega
    · rw [hbuflen]
      have hVlt : validLen C s < s.buffer.length * C := by
        rw [validLen_some C s e he']
        have h5 : 1 ≤ s.buffer.length * C := by
          calc 1 ≤ 1 * C := by omega
          _ ≤ s.buffer.length * C := Nat.mul_le_mul_right C h4
        omega
      have h6 : drain_quantity C s * C < s.buffer.length * C :=
        lt_of_le_of_lt hdv hVlt
      have hdqlt : drain_quantity C s < s.buffer.length := by
        by_contra hcon
        push_neg at hcon
        have := Nat.mul_le_mul_right C hcon
        omega
      omega
  · show s.cursor_pos - drain_quantity C s * C ≤
      validLen C (free_useless_chunks C s)
    rw [hV]
    omega
  · intro en hen
    rw [hcps] at hen
    unfold sub_offset at hen
    obtain ⟨en0, hen0, heq⟩ := List.mem_map.mp hen
    subst heq
    have hmem0 : en0 ∈ s.cps := by
      rw [cpMin_snd] at hen0
      exact (List.mem_filter.mp hen0).1
    have := hInv.cps_pos en0 hmem0
    rw [hV]
    show en0.pos - drain_quantity C s * C ≤ validLen C s - drain_quantity C s * C
    omega
  · have hmapid : ((free_useless_chunks C s).cps).map CPEntry.id =
        ((cpMin s.cps).2).map CPEntry.id := by
      rw [hcps]
      unfold sub_offset
      rw [List.map_map]
      rfl
    rw [hmapid, cpMin_snd]
    exact List.Sublist.nodup
      (List.Sublist.map CPEntry.id (List.filter_sublist s.cps)) hInv.ids_nodup
  · intro en hen
    rw [hcps] at hen
    unfold sub_offset at hen
    obtain ⟨en0, hen0, heq⟩ := List.mem_map.mp hen
    subst heq
    have hmem0 : en0 ∈ s.cps := by
      rw [cpMin_snd] at hen0
      exact (List.mem_filter.mp hen0).1
    exact hInv.ids_lt en0 hmem0
  · rw [hoff]
    show s.offset + drain_quantity C s * C +
      (s.cursor_pos - drain_quantity C s * C) = s.offset + s.cursor_pos
    omega

/-- Under the invariant, a read strictly inside the valid range returns the
source byte at the cursor's absolute position and advances the cursor. -/
theorem readByte_spec (C : Nat) (orig : List Nat) (s : EBRStream)
    (hInv : Inv C orig s) (hlt : s.cursor_pos < validLen C s) :
    ∃ b, orig[s.offset + s.cursor_pos]? = some b ∧
      readByte C s = .ok b { s with cursor_pos := s.cursor_pos + 1 } := by
  have hidx : s.offset + s.cursor_pos < orig.length := by
    have := hInv.len_le
    omega
  have hdata := hInv.data s.cursor_pos hlt
  rw [List.getElem?_eq_getElem hidx] at hdata
  refine ⟨orig[s.offset + s.cursor_pos], List.getElem?_eq_getElem hidx, ?_⟩
  unfold chunkByte at hdata
  unfold readByte chunkIndex itemIndex
  rcases hg : s.buffer[s.cursor_pos / C]? with - | chunk
  · rw [hg] at hdata
    exact absurd hdata (by simp)
  · rw [hg] at hdata
    simp only [Option.some_bind] at hdata
    simp [hdata]

/-- Under the invariant, fetching a fresh chunk when the cursor has run off
the buffered data succeeds (on a well-behaved source), preserves the
invariant and the absolute positions, and extends the valid range by the
bytes the source still had (up to one chunk). -/
theorem fetch_inv (C : Nat) (orig : List Nat) (s : EBRStream) (hC : 0 < C)
    (hInv : Inv C orig s) (heof : s.eof = none)
    (hci : chunkIndex C s.cursor_pos = s.buffer.length) :
    ∃ s2, fetchChunk C s = .ok s2 ∧ Inv C orig s2 ∧
      s2.offset + s2.cursor_pos = s.offset + s.cursor_pos ∧
      s2.cursor_pos = (s2.buffer.length - 1) * C ∧
      1 ≤ s2.buffer.length ∧
      validLen C s2 = s2.cursor_pos +
        min C (orig.length - (s.offset + s.cursor_pos)) ∧
      (∀ id, cpAbs s2 id = cpAbs s id) ∧
      s2.nextId = s.nextId ∧
      s2.eof = (if C ≤ orig.length - (s.offset + s.cursor_pos) then none
        else some (C - (orig.length - (s.offset + s.cursor_pos)))) := by
  obtain ⟨hInv1, hpos1, hV1, hDcur, hdqlen, hcpAbs1⟩ := free_inv C orig s hC hInv
  set s1 := free_useless_chunks C s with hs1
  unfold chunkIndex at hci
  have hge : s.buffer.length * C ≤ s.cursor_pos := by
    have h0 := Nat.div_mul_le_self s.cursor_pos C
    rw [hci] at h0
    exact h0
  have hVn : validLen C s = s.buffer.length * C := validLen_none C s heof
  have hcurV : s.cursor_pos = validLen C s := by
    have := hInv.cursor_le
    omega
  have heof1 : s1.eof = none := heof
  have hVn1 : validLen C s1 = s1.buffer.length * C := validLen_none C s1 heof1
  have hcur1 : s1.cursor_pos = s.cursor_pos - drain_quantity C s * C := rfl
  have hcur1V : s1.cursor_pos = validLen C s1 := by
    rw [hcur1, hV1, ← hcurV]
  have hlen1C : s1.cursor_pos = s1.buffer.length * C := hcur1V.trans hVn1
  have hpos1' : s1.offset + validLen C s1 = s.offset + validLen C s := by
    calc s1.offset + validLen C s1 = s1.offset + s1.cursor_pos := by rw [hcur1V]
    _ = s.offset + s.cursor_pos := hpos1
    _ = s.offset + validLen C s := by rw [hcurV]
  have hposV : s1.offset + s1.buffer.length * C = s.offset + s.cursor_pos := by
    rw [← hlen1C, hpos1]
  have hsrc1 : s1.src = orig.drop (s.offset + s.cursor_pos) := by
    rw [hInv1.src_eq, hpos1', ← hcurV]
  have hR : s1.src.length = orig.length - (s.offset + s.cursor_pos) := by
    rw [hsrc1, List.length_drop]
  have hposle : s.offset + s.cursor_pos ≤ orig.length := by
    have := hInv.len_le
    omega
  obtain ⟨sched2, hg2, hreor⟩ := reor_good_spec s1.sched hInv1.good s1.src C
  have hfetch := fetchChunk_ok C s heof sched2 (s1.src.drop C) (s1.src.take C)
    (if C ≤ s1.src.length then none else some (C - s1.src.length)) hreor
  set s2 : EBRStream :=
    { s1 with
      sched := sched2,
      src := s1.src.drop C,
      buffer := s1.buffer ++ [writeChunk C (s1.src.take C)],
      eof := (if C ≤ s1.src.length then none
        else some (C - s1.src.length)) } with hs2
  have hbuf2 : s2.buffer = s1.buffer ++ [writeChunk C (s1.src.take C)] := rfl
  have hlen2 : s2.buffer.length = s1.buffer.length + 1 := by
    rw [hbuf2]
    simp
  have hoff2 : s2.offset = s1.offset := rfl
  have hcur2 : s2.cursor_pos = s1.cursor_pos := rfl
  have heof2 : s2.eof = (if C ≤ s1.src.length then none
      else some (C - s1.src.length)) := rfl
  have hcps2 : s2.cps = s1.cps := rfl
  have hV2 : validLen C s2 = s1.buffer.length * C + min C s1.src.length := by
    by_cases hCR : C ≤ s1.src.length
    · rw [validLen_none C s2 (by rw [heof2, if_pos hCR]), hlen2,
        Nat.min_eq_left hCR, Nat.succ_mul]
    · push_neg at hCR
      rw [validLen_some C s2 (C - s1.src.length)
          (by rw [heof2, if_neg (not_le.mpr hCR)]), hlen2, Nat.succ_mul,
        Nat.min_eq_right (le_of_lt hCR)]
      omega
  have hwclen : (writeChunk C (s1.src.take C)).length = C := by
    unfold writeChunk
    rw [List.length_append, List.length_replicate, List.length_take]
    omega
  refine ⟨s2, hfetch, ⟨?_, hg2, ?_, ?_, ?_, ?_, ?_, ?_, ?_, ?_⟩, hpos1, ?_, ?_, ?_, ?_, ?_, ?_⟩
  · intro c hc
    rcases List.mem_append.mp (hbuf2 ▸ hc) with h | h
    · exact hInv1.chunks_len c h
    · rw [List.mem_singleton] at h
      subst h
      exact hwclen
  · rw [hV2, hoff2]
    have hm : min C s1.src.length ≤ s1.src.length := Nat.min_le_right _ _
    omega
  · intro k hk
    rw [hV2] at hk
    by_cases hklt : k < s1.buffer.length * C
    · have hdata1 := hInv1.data k (by rw [hVn1]; exact hklt)
      unfold chunkByte at hdata1 ⊢
      have hkdiv : k / C < s1.buffer.length := (Nat.div_lt_iff_lt_mul hC).mpr hklt
      rw [hbuf2, List.getElem?_append_left hkdiv, hoff2]
      exact hdata1
    · push_neg at hklt
      have hj : k - s1.buffer.length * C < min C s1.src.length := by omega
      have hjC : k - s1.buffer.length * C < C :=
        lt_of_lt_of_le hj (Nat.min_le_left _ _)
      have hjsrc : k - s1.buffer.length * C < s1.src.length :=
        lt_of_lt_of_le hj (Nat.min_le_right _ _)
      have hkform : k = s1.buffer.length * C + (k - s1.buffer.length * C) := by
        omega
      have hkdiv : k / C = s1.buffer.length := by
        conv_lhs => rw [hkform]
        rw [Nat.mul_comm s1.buffer.length C, Nat.mul_add_div hC,
          Nat.div_eq_of_lt (by rw [Nat.mul_comm C s1.buffer.length]; exact hjC),
          Nat.add_zero]
      have hkmod : k % C = k - s1.buffer.length * C := by
        conv_lhs => rw [hkform]
        rw [Nat.add_comm, Nat.add_mul_mod_self_right, Nat.mod_eq_of_lt hjC]
      have hjtk : k - s1.buffer.length * C < (s1.src.take C).length := by
        rw [List.length_take]
        exact hj
      have hchunk : (s1.buffer ++ [writeChunk C (s1.src.take C)])[s1.buffer.length]? =
          some (writeChunk C (s1.src.take C)) := by
        rw [List.getElem?_append_right (Nat.le_refl _), Nat.sub_self]
        rfl
      have hbyte : getElem? (writeChunk C (s1.src.take C))
          (k - s1.buffer.length * C) = s1.src[k - s1.buffer.length * C]? := by
        unfold writeChunk
        rw [List.getElem?_append_left hjtk, List.getElem?_take, if_pos hjC]
      unfold chunkByte
      rw [hbuf2, hkdiv, hkmod, hchunk]
      simp only [Option.some_bind]
      rw [hbyte, hsrc1, List.getElem?_drop]
      congr 1
      rw [hoff2]
      omega
  · have hsrc2 : s2.src = s1.src.drop C := rfl
    rw [hsrc2, hsrc1, List.drop_drop, hoff2, hV2]
    by_cases hCR : C ≤ s1.src.length
    · rw [Nat.min_eq_left hCR]
      congr 1
      omega
    · push_neg at hCR
      rw [Nat.min_eq_right (le_of_lt hCR)]
      have h1 : List.drop (s.offset + s.cursor_pos + C) orig = [] :=
        List.drop_eq_nil_of_le (by omega)
      have h2 : List.drop (s1.offset + (s1.buffer.length * C + s1.src.length))
          orig = [] :=
        List.drop_eq_nil_of_le (by omega)
      rw [h1, h2]
  · intro e2 he2
    rw [heof2] at he2
    by_cases hCR : C ≤ s1.src.length
    · rw [if_pos hCR] at he2
      cases he2
    · push_neg at hCR
      rw [if_neg (not_le.mpr hCR)] at he2
      injection he2 with he2
      refine ⟨?_, by omega, by omega, by rw [hlen2]; omega⟩
      rw [hoff2, hV2]
      have hm : min C s1.src.length = s1.src.length :=
        Nat.min_eq_right (le_of_lt hCR)
      omega
  · rw [hcur2, hV2, hlen1C]
    exact Nat.le_add_right _ _
  · intro en hen
    rw [hcps2] at hen
    have := hInv1.cps_pos en hen
    rw [hV2]
    rw [hVn1] at this
    omega
  · have : s2.cps.map CPEntry.id = s1.cps.map CPEntry.id := rfl
    rw [this]
    exact hInv1.ids_nodup
  · intro en hen
    rw [hcps2] at hen
    exact hInv1.ids_lt en hen
  · rw [hcur2, hlen1C, hlen2, Nat.add_sub_cancel]
  · rw [hlen2]
    omega
  · rw [hV2, hcur2, hlen1C, hR]
  · intro id
    exact hcpAbs1 id
  · rfl
  · rw [heof2, hR]

/-- Advancing the cursor one byte inside the valid range preserves the
invariant. -/
theorem step_inv (C : Nat) (orig : List Nat) (s : EBRStream)
    (hInv : Inv C orig s) (h : s.cursor_pos < validLen C s) :
    Inv C orig { s with cursor_pos := s.cursor_pos + 1 } := by
  obtain ⟨f1, f2, f3, f4, f5, f6, f7, f8, f9, f10⟩ := hInv
  refine ⟨f1, f2, f3, f4, f5, f6, ?_, f8, f9, f10⟩
  show s.cursor_pos + 1 ≤ validLen C s
  omega

/-- Main correctness of `uncons` on reachable states: below the source
length it returns the source byte at the absolute position and advances by
one; at the source length it returns `EndOfInput` without moving.  In both
cases the invariant, every live checkpoint's absolute position, and the id
counter are preserved. -/
theorem uncons_spec (C : Nat) (orig : List Nat) (s : EBRStream) (hC : 0 < C)
    (hInv : Inv C orig s) :
    (s.offset + s.cursor_pos < orig.length →
      ∃ b s', orig[s.offset + s.cursor_pos]? = some b ∧
        uncons C s = .ok b s' ∧ Inv C orig s' ∧
        s'.offset + s'.cursor_pos = s.offset + s.cursor_pos + 1 ∧
        (∀ id, cpAbs s' id = cpAbs s id) ∧ s'.nextId = s.nextId) ∧
    (s.offset + s.cursor_pos = orig.length →
      ∃ s', uncons C s = .endOfInput s' ∧ Inv C orig s' ∧
        s'.offset + s'.cursor_pos = s.offset + s.cursor_pos ∧
        (∀ id, cpAbs s' id = cpAbs s id) ∧ s'.nextId = s.nextId) := by
  have hV := hInv.cursor_le
  have hLL := hInv.len_le
  have hvlen := validLen_le C s
  have hcile : chunkIndex C s.cursor_pos ≤ s.buffer.length := by
    unfold chunkIndex
    have h1 : s.cursor_pos ≤ s.buffer.length * C := le_trans hV hvlen
    calc s.cursor_pos / C ≤ s.buffer.length * C / C := Nat.div_le_div_right h1
    _ = s.buffer.length := Nat.mul_div_left _ hC
  by_cases hfetchq : chunkIndex C s.cursor_pos = s.buffer.length
  · -- the cursor ran off the buffered data: a fetch happens
    have heof : s.eof = none := by
      rcases hif : s.eof with - | e
      · rfl
      · obtain ⟨h1, h2, h3, h4⟩ := hInv.eof_spec e hif
        have hVs := validLen_some C s e hif
        have hge : s.buffer.length * C ≤ s.cursor_pos := by
          have h0 := Nat.div_mul_le_self s.cursor_pos C
          unfold chunkIndex at hfetchq
          rw [hfetchq] at h0
          exact h0
        have hlenC : 1 * C ≤ s.buffer.length * C := Nat.mul_le_mul_right C h4
        omega
    obtain ⟨s2, hf, hInv2, hpos2, hcur2eq, hlen2ge, hV2, hcpAbs2, hnext2, heof2⟩ :=
      fetch_inv C orig s hC hInv heof hfetchq
    have hlast2 : chunkIndex C s2.cursor_pos = s2.buffer.length - 1 := by
      unfold chunkIndex
      rw [hcur2eq, Nat.mul_div_left _ hC]
    have hii2 : itemIndex C s2.cursor_pos = 0 := by
      unfold itemIndex
      rw [hcur2eq]
      exact Nat.mul_mod_left _ _
    have huncons : uncons C s =
        (if chunkIndex C s2.cursor_pos = s2.buffer.length - 1 then
          match s2.eof with
          | some e =>
            if C - e ≤ itemIndex C s2.cursor_pos then UnconsResult.endOfInput s2
            else readByte C s2
          | none => readByte C s2
        else readByte C s2) := by
      rw [uncons_fetch C s hfetchq]
      simp only [hf]
    rw [huncons, if_pos hlast2]
    constructor
    · intro hlt
      have hRpos : 1 ≤ orig.length - (s.offset + s.cursor_pos) := by omega
      have hminpos : 1 ≤ min C (orig.length - (s.offset + s.cursor_pos)) :=
        Nat.le_min.mpr ⟨hC, hRpos⟩
      have hcur2lt : s2.cursor_pos < validLen C s2 := by
        rw [hV2]
        omega
      obtain ⟨b, hb, hrb⟩ := readByte_spec C orig s2 hInv2 hcur2lt
      rw [hpos2] at hb
      have hout : (match s2.eof with
          | some e =>
            if C - e ≤ itemIndex C s2.cursor_pos then UnconsResult.endOfInput s2
            else readByte C s2
          | none => readByte C s2) = readByte C s2 := by
        rw [heof2]
        by_cases hCR : C ≤ orig.length - (s.offset + s.cursor_pos)
        · rw [if_pos hCR]
        · rw [if_neg hCR]
          show (if C - (C - (orig.length - (s.offset + s.cursor_pos))) ≤
              itemIndex C s2.cursor_pos then UnconsResult.endOfInput s2
            else readByte C s2) = readByte C s2
          rw [if_neg (by rw [hii2]; omega)]
      rw [hout, hrb]
      refine ⟨b, _, hb, rfl, step_inv C orig s2 hInv2 hcur2lt, ?_, ?_, hnext2⟩
      · show s2.offset + (s2.cursor_pos + 1) = s.offset + s.cursor_pos + 1
        omega
      · intro id
        exact hcpAbs2 id
    · intro hpose
      have hR0 : orig.length - (s.offset + s.cursor_pos) = 0 := by omega
      rw [hR0] at heof2
      have heof2h : s2.eof = some C := by
        rw [heof2, if_neg (by omega)]
        simp
      have hmatch : (match s2.eof with
          | some e =>
            if C - e ≤ itemIndex C s2.cursor_pos then UnconsResult.endOfInput s2
            else readByte C s2
          | none => readByte C s2) = UnconsResult.endOfInput s2 := by
        rw [heof2h]
        show (if C - C ≤ itemIndex C s2.cursor_pos then UnconsResult.endOfInput s2
          else readByte C s2) = UnconsResult.endOfInput s2
        rw [if_pos (by omega)]
      rw [hmatch]
      refine ⟨s2, rfl, hInv2, by omega, hcpAbs2, hnext2⟩
  · -- the cursor is inside the buffered data: no fetch
    have hlt : chunkIndex C s.cursor_pos < s.buffer.length :=
      lt_of_le_of_ne hcile hfetchq
    rw [uncons_no_fetch C s hlt]
    constructor
    · intro hposlt
      have hcurlt : s.cursor_pos < validLen C s := by
        rcases hif : s.eof with - | e
        · have hVn := validLen_none C s hif
          have h2 : s.cursor_pos < s.buffer.length * C := by
            unfold chunkIndex at hlt
            exact (Nat.div_lt_iff_lt_mul hC).mp hlt
          omega
        · obtain ⟨h1, -, -, -⟩ := hInv.eof_spec e hif
          omega
      obtain ⟨b, hb, hrb⟩ := readByte_spec C orig s hInv hcurlt
      have hresult : (if chunkIndex C s.cursor_pos = s.buffer.length - 1 then
          match s.eof with
          | some e =>
            if C - e ≤ itemIndex C s.cursor_pos then UnconsResult.endOfInput s
            else readByte C s
          | none => readByte C s
        else readByte C s) = readByte C s := by
        by_cases hlast : chunkIndex C s.cursor_pos = s.buffer.length - 1
        · rw [if_pos hlast]
          rcases hif : s.eof with - | e
          · rfl
          · obtain ⟨h1, h2, h3, h4⟩ := hInv.eof_spec e hif
            have hVs := validLen_some C s e hif
            obtain ⟨n, hn⟩ : ∃ n, s.buffer.length = n + 1 :=
              ⟨s.buffer.length - 1, by omega⟩
            rw [hn, Nat.succ_mul] at hVs
            have hiilt : ¬ (C - e ≤ itemIndex C s.cursor_pos) := by
              unfold itemIndex
              have hdm := Nat.div_add_mod s.cursor_pos C
              unfold chunkIndex at hlast
              rw [hn, Nat.add_sub_cancel] at hlast
              rw [hlast, Nat.mul_comm C n] at hdm
              omega
            show (if C - e ≤ itemIndex C s.cursor_pos then UnconsResult.endOfInput s
              else readByte C s) = readByte C s
            rw [if_neg hiilt]
        · rw [if_neg hlast]
      rw [hresult, hrb]
      refine ⟨b, _, hb, rfl, step_inv C orig s hInv hcurlt, ?_, ?_, rfl⟩
      · show s.offset + (s.cursor_pos + 1) = s.offset + s.cursor_pos + 1
        omega
      · intro id
        rfl
    · intro hpose
      have hcurV : s.cursor_pos = validLen C s := by omega
      rcases hif : s.eof with - | e
      · exfalso
        have hVn := validLen_none C s hif
        have hcurC : s.cursor_pos = s.buffer.length * C := by omega
        have hcontra : chunkIndex C s.cursor_pos = s.buffer.length := by
          unfold chunkIndex
          rw [hcurC, Nat.mul_div_left _ hC]
        exact absurd hcontra hfetchq
      · obtain ⟨h1, h2, h3, h4⟩ := hInv.eof_spec e hif
        have hVs := validLen_some C s e hif
        obtain ⟨n, hn⟩ : ∃ n, s.buffer.length = n + 1 :=
          ⟨s.buffer.length - 1, by omega⟩
        rw [hn, Nat.succ_mul] at hVs
        have hcurval : s.cursor_pos = n * C + (C - e) := by omega
        have hcil : chunkIndex C s.cursor_pos = s.buffer.length - 1 := by
          unfold chunkIndex
          rw [hcurval, Nat.mul_comm n C, Nat.mul_add_div hC,
            Nat.div_eq_of_lt (by omega), Nat.add_zero, hn, Nat.add_sub_cancel]
        have hiival : itemIndex C s.cursor_pos = C - e := by
          unfold itemIndex
          rw [hcurval, Nat.add_comm, Nat.add_mul_mod_self_right,
            Nat.mod_eq_of_lt (by omega)]
        rw [if_pos hcil]
        refine ⟨s, ?_, hInv, rfl, fun id => rfl, rfl⟩
        show (if C - e ≤ itemIndex C s.cursor_pos then UnconsResult.endOfInput s
          else readByte C s) = UnconsResult.endOfInput s
        rw [if_pos hiival.ge]

theorem unconsN_zero (C : Nat) (s : EBRStream) : unconsN C 0 s = some ([], s) :=
  rfl

theorem unconsN_succ_ok (C k : Nat) (s : EBRStream) (b : Nat) (s1 : EBRStream)
    (h : uncons C s = .ok b s1) :
    unconsN C (k + 1) s =
      (match unconsN C k s1 with
       | some (bs, s'') => some (b :: bs, s'')
       | none => none) := by
  conv_lhs => unfold unconsN
  rw [h]

/-- Iterated `uncons`: `k` reads starting inside the source return exactly
the `k` source bytes from the current absolute position, preserving the
invariant and checkpoint positions and advancing the position by `k`. -/
theorem unconsN_spec (C : Nat) (orig : List Nat) (hC : 0 < C) :
    ∀ (k : Nat) (s : EBRStream), Inv C orig s →
      s.offset + s.cursor_pos + k ≤ orig.length →
      ∃ s', unconsN C k s =
          some ((orig.drop (s.offset + s.cursor_pos)).take k, s') ∧
        Inv C orig s' ∧
        s'.offset + s'.cursor_pos = s.offset + s.cursor_pos + k ∧
        (∀ id, cpAbs s' id = cpAbs s id) ∧ s'.nextId = s.nextId := by
  intro k
  induction k with
  | zero =>
    intro s hInv hk
    exact ⟨s, by rw [unconsN_zero]; simp, hInv, by omega, fun id => rfl, rfl⟩
  | succ k ih =>
    intro s hInv hk
    have hlt : s.offset + s.cursor_pos < orig.length := by omega
    obtain ⟨b, s1, hb, hu, hInv1, hpos1, hcp1, hnext1⟩ :=
      (uncons_spec C orig s hC hInv).1 hlt
    obtain ⟨s', hN, hInv', hpos', hcp', hnext'⟩ := ih s1 hInv1 (by omega)
    rw [hpos1] at hN hpos'
    have hdropeq : orig.drop (s.offset + s.cursor_pos) =
        orig[s.offset + s.cursor_pos] ::
          orig.drop (s.offset + s.cursor_pos + 1) :=
      List.drop_eq_getElem_cons hlt
    have hbval : b = orig[s.offset + s.cursor_pos] := by
      rw [List.getElem?_eq_getElem hlt] at hb
      exact (Option.some.inj hb).symm
    refine ⟨s', ?_, hInv', by omega, fun id => (hcp' id).trans (hcp1 id),
      hnext'.trans hnext1⟩
    rw [unconsN_succ_ok C k s b s1 hu, hN, hdropeq, List.take_succ_cons, hbval]

/-- `checkpoint` preserves the invariant and the position, and the fresh
checkpoint's absolute position is the current absolute position. -/
theorem checkpoint_inv (C : Nat) (orig : List Nat) (s : EBRStream)
    (hInv : Inv C orig s) :
    Inv C orig (checkpoint s).2 ∧
    (checkpoint s).2.offset + (checkpoint s).2.cursor_pos =
      s.offset + s.cursor_pos ∧
    cpAbs (checkpoint s).2 (checkpoint s).1 =
      some (s.offset + s.cursor_pos) := by
  have hcps : (checkpoint s).2.cps =
      s.cps ++ [{ id := s.nextId, pos := s.cursor_pos, alive := true }] := rfl
  refine ⟨⟨hInv.chunks_len, hInv.good, hInv.len_le, hInv.data, hInv.src_eq,
    hInv.eof_spec, hInv.cursor_le, ?_, ?_, ?_⟩, rfl, ?_⟩
  · intro en hen
    rw [hcps] at hen
    rcases List.mem_append.mp hen with h | h
    · exact hInv.cps_pos en h
    · rw [List.mem_singleton] at h
      subst h
      exact hInv.cursor_le
  · rw [hcps, List.map_append]
    refine List.Nodup.append hInv.ids_nodup (List.nodup_singleton _) ?_
    intro a ha hb
    simp only [List.map_cons, List.map_nil, List.mem_singleton] at hb
    subst hb
    obtain ⟨en, hen, heq⟩ := List.mem_map.mp ha
    have := hInv.ids_lt en hen
    show False
    omega
  · intro en hen
    rw [hcps] at hen
    rcases List.mem_append.mp hen with h | h
    · have := hInv.ids_lt en h
      show en.id < s.nextId + 1
      omega
    · rw [List.mem_singleton] at h
      subst h
      show s.nextId < s.nextId + 1
      omega
  · unfold cpAbs
    rw [hcps, List.find?_append]
    have hnone : s.cps.find? (fun en => en.id == s.nextId && en.alive) = none := by
      rcases hfind : s.cps.find? (fun en => en.id == s.nextId && en.alive) with
        - | en0
      · exact hfind
      · have hmem := List.mem_of_find?_eq_some hfind
        have hpr := List.find?_some hfind
        simp at hpr
        have := hInv.ids_lt en0 hmem
        omega
    show Option.map (fun en => (checkpoint s).2.offset + en.pos)
      ((s.cps.find? (fun en => en.id == s.nextId && en.alive)).or
        (List.find? (fun en => en.id == s.nextId && en.alive)
          [{ id := s.nextId, pos := s.cursor_pos, alive := true }])) =
      some (s.offset + s.cursor_pos)
    rw [hnone, Option.none_or, List.find?_cons_of_pos _ (by simp)]
    rfl

/-- `reset` to a live checkpoint restores the checkpoint's absolute
position, preserving everything else. -/
theorem reset_spec (C : Nat) (orig : List Nat) (s : EBRStream) (cpId P : Nat)
    (hInv : Inv C orig s) (hcp : cpAbs s cpId = some P) :
    Inv C orig (reset s cpId) ∧
    (reset s cpId).offset + (reset s cpId).cursor_pos = P ∧
    (∀ id, cpAbs (reset s cpId) id = cpAbs s id) ∧
    (reset s cpId).nextId = s.nextId := by
  unfold cpAbs at hcp
  rcases hfind : s.cps.find? (fun en => en.id == cpId && en.alive) with - | en0
  · rw [hfind] at hcp
    exact absurd hcp (by simp)
  · rw [hfind] at hcp
    simp only [Option.map_some'] at hcp
    injection hcp with hcp
    have hmem : en0 ∈ s.cps := List.mem_of_find?_eq_some hfind
    have hpr := List.find?_some hfind
    simp at hpr
    have hfind2 : s.cps.find? (fun x => x.id == cpId) = some en0 := by
      rw [← hpr.1]
      exact find?_id_of_mem_nodup s.cps hInv.ids_nodup en0 hmem
    have hreq : reset s cpId = { s with cursor_pos := en0.pos } := by
      unfold reset
      rw [hfind2]
    rw [hreq]
    refine ⟨⟨hInv.chunks_len, hInv.good, hInv.len_le, hInv.data, hInv.src_eq,
      hInv.eof_spec, ?_, hInv.cps_pos, hInv.ids_nodup, hInv.ids_lt⟩, ?_,
      fun id => rfl, rfl⟩
    · show en0.pos ≤ validLen C s
      exact hInv.cps_pos en0 hmem
    · show s.offset + en0.pos = P
      exact hcp

/-! ### Claims C1, C5 and C2: end-to-end read, position and backtracking -/

/-- C1: on any well-behaved finite source carrying the byte sequence
`orig`, reading `orig.length` times from a freshly constructed stream
returns exactly the source's bytes in order, and the next call returns
`EndOfInput`. -/
theorem C1_uncons_reads_source (C : Nat) (sched : List Step) (orig : List Nat)
    (hC : 0 < C) (hg : GoodSched sched) :
    ∃ s', unconsN C orig.length (mkStream sched orig) = some (orig, s') ∧
      ∃ s'', uncons C s' = UnconsResult.endOfInput s'' := by
  have hInv0 := mkStream_inv C orig sched hg
  have h0 : (mkStream sched orig).offset + (mkStream sched orig).cursor_pos =
      0 := rfl
  obtain ⟨s', hN, hInv', hpos', -, -⟩ :=
    unconsN_spec C orig hC orig.length (mkStream sched orig) hInv0
      (by rw [h0]; omega)
  rw [h0, List.drop_zero, List.take_length] at hN
  rw [h0] at hpos'
  refine ⟨s', hN, ?_⟩
  obtain ⟨s'', he, -, -, -, -⟩ :=
    (uncons_spec C orig s' hC hInv').2 (by omega)
  exact ⟨s'', he⟩

/-- Witness for C1: chunk size 2 over the three-byte source `[1, 2, 3]`. -/
theorem C1_uncons_reads_source_witness :
    ∃ s', unconsN 2 (List.length ([1, 2, 3] : List Nat))
        (mkStream [] [1, 2, 3]) = some ([1, 2, 3], s') ∧
      ∃ s'', uncons 2 s' = UnconsResult.endOfInput s'' :=
  C1_uncons_reads_source 2 [] [1, 2, 3] (by decide) (by decide)

/-- C5: `position()` after `k` successful reads from a freshly constructed
stream equals `k`, for every `k` up to the source length and every chunk
size. -/
theorem C5_position_counts_reads (C : Nat) (sched : List Step)
    (orig : List Nat) (k : Nat) (hC : 0 < C) (hg : GoodSched sched)
    (hk : k ≤ orig.length) :
    ∃ s', unconsN C k (mkStream sched orig) = some (orig.take k, s') ∧
      position s' = k := by
  have hInv0 := mkStream_inv C orig sched hg
  have h0 : (mkStream sched orig).offset + (mkStream sched orig).cursor_pos =
      0 := rfl
  obtain ⟨s', hN, -, hpos', -, -⟩ :=
    unconsN_spec C orig hC k (mkStream sched orig) hInv0 (by rw [h0]; omega)
  rw [h0, List.drop_zero] at hN
  rw [h0] at hpos'
  refine ⟨s', hN, ?_⟩
  show s'.offset + s'.cursor_pos = k
  omega

/-- Witness for C5: two reads over `[1, 2, 3]` with chunk size 2 leave the
position at 2. -/
theorem C5_position_counts_reads_witness :
    ∃ s', unconsN 2 2 (mkStream [] [1, 2, 3]) =
        some (List.take 2 [1, 2, 3], s') ∧ position s' = 2 :=
  C5_position_counts_reads 2 [] [1, 2, 3] 2 (by decide) (by decide) (by decide)

/-- C2: checkpoint/restore round-trip.  Reach position `k` by reading,
take a checkpoint, perform any number `j` of further successful reads,
reset to the checkpoint: the next `uncons` returns the same byte
`orig[k]` that an `uncons` right after the checkpoint would have
returned. -/
theorem C2_checkpoint_roundtrip (C : Nat) (sched : List Step)
    (orig : List Nat) (k j : Nat) (hC : 0 < C) (hg : GoodSched sched)
    (hk : k < orig.length) (hj : k + j ≤ orig.length) :
    ∃ pre s1, unconsN C k (mkStream sched orig) = some (pre, s1) ∧
    ∃ mid s3, unconsN C j (checkpoint s1).2 = some (mid, s3) ∧
    ∃ b, orig[k]? = some b ∧
      (∃ s4, uncons C (reset s3 (checkpoint s1).1) = UnconsResult.ok b s4) ∧
      (∃ s2, uncons C s1 = UnconsResult.ok b s2) := by
  have hInv0 := mkStream_inv C orig sched hg
  have h0 : (mkStream sched orig).offset + (mkStream sched orig).cursor_pos =
      0 := rfl
  obtain ⟨s1, hN1, hInv1, hpos1, -, -⟩ :=
    unconsN_spec C orig hC k (mkStream sched orig) hInv0 (by rw [h0]; omega)
  rw [h0, Nat.zero_add] at hpos1
  obtain ⟨hInvc, hposc, hcpc⟩ := checkpoint_inv C orig s1 hInv1
  obtain ⟨s3, hN3, hInv3, hpos3, hcp3, -⟩ :=
    unconsN_spec C orig hC j (checkpoint s1).2 hInvc
      (by rw [hposc, hpos1]; omega)
  have hcp3k : cpAbs s3 (checkpoint s1).1 = some k := by
    rw [hcp3 (checkpoint s1).1, hcpc, hpos1]
  obtain ⟨hInv4, hpos4, -, -⟩ :=
    reset_spec C orig s3 (checkpoint s1).1 k hInv3 hcp3k
  obtain ⟨b, s5, hb5, hu5, -, -, -, -⟩ :=
    (uncons_spec C orig (reset s3 (checkpoint s1).1) hC hInv4).1
      (by rw [hpos4]; exact hk)
  rw [hpos4] at hb5
  obtain ⟨b1, s2, hb1, hu1, -, -, -, -⟩ :=
    (uncons_spec C orig s1 hC hInv1).1 (by omega)
  rw [hpos1] at hb1
  have hbeq : b1 = b := by
    rw [hb1] at hb5
    exact Option.some.inj hb5
  exact ⟨_, s1, hN1, _, s3, hN3, b, hb5, ⟨s5, hu5⟩, ⟨s2, hbeq ▸ hu1⟩⟩

/-- Witness for C2: source `[1, 2, 3, 4, 5]`, chunk size 2, checkpoint at
position 1 after one read, two further reads, then reset and reread. -/
theorem C2_checkpoint_roundtrip_witness :
    ∃ pre s1, unconsN 2 1 (mkStream [] [1, 2, 3, 4, 5]) = some (pre, s1) ∧
    ∃ mid s3, unconsN 2 2 (checkpoint s1).2 = some (mid, s3) ∧
    ∃ b, ([1, 2, 3, 4, 5] : List Nat)[1]? = some b ∧
      (∃ s4, uncons 2 (reset s3 (checkpoint s1).1) = UnconsResult.ok b s4) ∧
      (∃ s2, uncons 2 s1 = UnconsResult.ok b s2) :=
  C2_checkpoint_roundtrip 2 [] [1, 2, 3, 4, 5] 1 2 (by decide) (by decide)
    (by decide) (by decide)

end ElasticBuffer
